import Mathlib

/-!
# Verification of the rst-formatting-scripts repository

Shallow embedding of the two scripts
`periphery-append-units-to-csv.py` and `subscript-to-math.py`, together
with theorems settling the specification claims.

Strings are modelled as Lean `String` (a structure around `List Char`);
most computation is carried out on `List Char`.  Python primitives
(`str.replace`, `re.split` on a single-character alternation,
`str.partition`, list membership, `dict.fromkeys`, `" ".join`) are
modelled by the helper functions below.
-/

set_option autoImplicit false
set_option maxRecDepth 40000

namespace RstFmt

/-! ## Python string primitives -/

/-- Fuel-driven worker for `replaceAll`; the fuel (any bound above the
input length) only forces structural recursion and never runs out. -/
def replaceAllF (pat rep : List Char) : Nat → List Char → List Char
  | 0, s => s
  | _ + 1, [] => []
  | f + 1, c :: cs =>
    if pat ≠ [] ∧ pat.isPrefixOf (c :: cs) then
      rep ++ replaceAllF pat rep f ((c :: cs).drop pat.length)
    else
      c :: replaceAllF pat rep f cs

/-- Python `str.replace(pat, rep)`: replace every non-overlapping
occurrence of `pat`, scanning left to right.  (Never called with an
empty `pat` in this development; for `pat = []` this returns the input
unchanged.) -/
def replaceAll (pat rep s : List Char) : List Char :=
  replaceAllF pat rep s.length s

/-- Split on a character predicate, keeping empty pieces, as Python
`re.split(' |_|,|\\.|\\:|\\n|\\||"', s)` does for its single-character
alternation.  Always returns a non-empty list. -/
def splitP (p : Char → Bool) : List Char → List (List Char)
  | [] => [[]]
  | c :: cs =>
    match splitP p cs with
    | [] => [[]]
    | t :: ts => if p c then [] :: t :: ts else (c :: t) :: ts

/-- `list(dict.fromkeys(xs))`: deduplicate keeping the first occurrence
of each element, preserving order. -/
def dedupFirst : List (List Char) → List (List Char)
  | [] => []
  | x :: xs => x :: (dedupFirst xs).filter (· ≠ x)

/-- First position (if any) at which `pat` occurs as a substring of `s`,
Python `s.find(pat)`.  -/
def findSub (s pat : List Char) : Option Nat :=
  (List.range (s.length + 1)).find? (fun i => pat.isPrefixOf (s.drop i))

/-- Python `pat in s` substring containment. -/
def containsSub (s pat : List Char) : Bool :=
  (findSub s pat).isSome

/-- Python `s.find(pat, from)`: first position `≥ from` at which `pat`
occurs as a substring of `s`. -/
def findSubFrom (s pat : List Char) (i : Nat) : Option Nat :=
  ((List.range (s.length + 1)).filter (fun j => i ≤ j)).find?
    (fun j => pat.isPrefixOf (s.drop j))

/-- Python `str.lower` (ASCII range; all catalog keywords are ASCII). -/
def pyLower (c : Char) : Char := c.toLower

/-- Python `sep.join(xs)` for a one-character separator. -/
def joinSep (sep : Char) : List (List Char) → List Char
  | [] => []
  | [x] => x
  | x :: xs => x ++ sep :: joinSep sep xs

/-! ## `pick_units` (periphery-append-units-to-csv.py, lines 47-116) -/

/-- `no_unit_values`: values which imply no unit. -/
def no_unit_values : List (String × String) := [("N/A", "N/A"), ("", "")]

/-- `desc_picks`: recognized units and their aliases, in the source's
dictionary insertion order. -/
def desc_picks : List (String × List String) :=
  [ ("deg", ["degrees", "deg", "[deg]", "(deg)"]),
    ("mm", ["mm", "[mm]", "(mm)"]),
    ("mm²", ["mm2", "[mm2]", "(mm2)", "mm^2", "[mm^2]", "(mm^2)", "mmsq"]),
    ("µm", ["um", "[um]", "(um)"]),
    ("µm²", ["um2", "[um2]", "(um2)", "um^2", "[um^2]", "(um^2)", "umsq"]),
    ("nm", ["nm", "[nm]", "(nm)"]) ]

/-- `guess_keywords`: keywords related to units, in the source's
dictionary insertion order.  The last label is the literal two-character
string backslash-dash (`'\-'` in the Python source). -/
def guess_keywords : List (String × List String) :=
  [ ("deg", ["angle", "angles"]),
    ("µm", ["length", "width", "space", "spacing", "distance", "enclosure",
            "enclosed", "step", "l", "w", "differ", "size", "within"]),
    ("µm²", ["area"]),
    ("\\-", ["density"]) ]

/-- `allow_guessing = True` in the source. -/
def allow_guessing : Bool := true

/-- `strong_guess_limit = 2` in the source. -/
def strong_guess_limit : Nat := 2

/-- The delimiter set of `re.split(' |_|,|\\.|\\:|\\n|\\||"', rdesc)`. -/
def isDelim (c : Char) : Bool :=
  c = ' ' || c = '_' || c = ',' || c = '.' || c = ':' || c = '\n' || c = '|' || c = '"'

/-- Body of the alias-scan loop of `pick_units` (lines 94-101) for one
alias `al` of unit `u`: if `al` occurs as a token of the (fixed) token
list `toks`, append `u` to the candidate list and rewrite the running
description: delete the alias if it is the last token, otherwise replace
it with the unified unit notation. -/
def aliasStep (toks : List (List Char)) (u : List Char)
    (acc : List (List Char) × List Char) (al : List Char) :
    List (List Char) × List Char :=
  if toks.contains al then
    (acc.1 ++ [u],
     if al = toks.getLastD [] then replaceAll al [] acc.2
     else replaceAll al u acc.2)
  else acc

/-- The full alias scan: fold the alias catalog in order over the
candidate list and the description. -/
def aliasPhase (toks : List (List Char)) (rdesc : List Char) :
    List (List Char) × List Char :=
  desc_picks.foldl
    (fun acc p => p.2.foldl (fun a s => aliasStep toks p.1.data a s.data) acc)
    ([], rdesc)

/-- Body of the keyword-guess loop of `pick_units` (lines 105-112) for
one keyword `k` of unit `u`: a strong guess (keyword within the first
`strong_guess_limit` lowered tokens and no already-recorded candidate
with the same prefix-stripped suffix) replaces the candidate list
wholesale; otherwise a regular guess fires only when the candidate list
is still empty. -/
def guessStep (ltoks : List (List Char)) (u : List Char)
    (unit : List (List Char)) (k : List Char) : List (List Char) :=
  let unit :=
    if (ltoks.take strong_guess_limit).contains k
        && !((unit.map (List.drop 1)).contains (u.drop 1))
    then [u] else unit
  if unit.length = 0 && ltoks.contains k then [u] else unit

/-- The full keyword guess: fold the keyword catalog in order over the
candidate list. -/
def guessPhase (ltoks : List (List Char)) (unit : List (List Char)) :
    List (List Char) :=
  guess_keywords.foldl
    (fun un p => p.2.foldl (fun un k => guessStep ltoks p.1.data un k.data) un)
    unit

/-- The candidate list and filtered description computed by
`pick_units` just before the final dedup-and-join, for a value not in
`no_unit_values`. -/
def pick_units_core (rdesc : List Char) : List (List Char) × List Char :=
  let toks := splitP isDelim rdesc
  let r := aliasPhase toks rdesc
  let ltoks := toks.map (List.map pyLower)
  ((if allow_guessing then guessPhase ltoks r.1 else r.1), r.2)

/-- The candidate list of `pick_units` before deduplication. -/
def pick_units_candidates (rdesc : String) : List (List Char) :=
  (pick_units_core rdesc.data).1

/-- `pick_units(rdesc, rvalue)` (lines 47-116): returns the inferred
unit string and the filtered description. -/
def pick_units (rdesc rvalue : String) : String × String :=
  match no_unit_values.lookup rvalue with
  | some u => (u, rdesc)
  | none =>
    let r := pick_units_core rdesc.data
    (String.mk (joinSep ' ' (dedupFirst r.1)), String.mk r.2)

/-! ## File-level pass of `append_units_to_periphery_csv` (lines 135-157)

The script writes every processed line to the temporary file
`infile + '.tmp'` inside the loop and only after the loop completes runs
`shutil.move(outfile, infile)`.  The per-line processing is abstracted
as a function `f : String → Option String`, where `none` models an
exception raised while processing that line (e.g. an I/O or encoding
error); an exception propagates out of the `with` block, so the move is
never executed. -/

/-- The two files involved in one run of
`append_units_to_periphery_csv`: the source file and the temporary
output file, each as its list of lines. -/
structure FileState where
  src : List String
  tmp : List String
deriving DecidableEq

/-- One iteration of the write loop: process line `l` with `f` and
append the result to the temporary file; `none` when processing `l`
raises.  The source file is never written inside the loop. -/
def passLine (f : String → Option String) (fs : FileState) (l : String) :
    Option FileState :=
  (f l).map (fun o => ⟨fs.src, fs.tmp ++ [o]⟩)

/-- The write loop over all remaining source lines; on the first
failure the exception propagates with the state reached so far. -/
def passLines (f : String → Option String) (fs : FileState) :
    List String → Except FileState FileState
  | [] => .ok fs
  | l :: ls =>
    match passLine f fs l with
    | none => .error fs
    | some fs' => passLines f fs' ls

/-- `append_units_to_periphery_csv` at the file level: run the write
loop starting from an empty temporary file; only on success does
`shutil.move` overwrite the source with the temporary file. -/
def append_units_run (f : String → Option String) (src : List String) :
    FileState :=
  match passLines f ⟨src, []⟩ src with
  | .ok fs => ⟨fs.tmp, fs.tmp⟩
  | .error fs => fs

/-! ## `strip_math` (subscript-to-math.py, lines 59-70) -/

/-- The backtick character (written by code point to keep it out of the
source text). -/
def btick : Char := '\x60'

/-- The `math_tag = ':math:`'` constant of `strip_math`. -/
def mathTag : List Char := ":math:".data ++ [btick]

/-- One iteration of the `while True` loop of `strip_math`: `none` when
the loop returns `s` unchanged (no tag, or no closing backtick after
it), `some s'` when it removes one `:math:` tag and one backtick and
loops. -/
def stripMathStep (s : List Char) : Option (List Char) :=
  match findSub s mathTag with
  | none => none
  | some start =>
    match findSubFrom s [btick] (start + mathTag.length) with
    | none => none
    | some stop =>
      some (s.take start ++
        (s.drop (start + mathTag.length)).take (stop - (start + mathTag.length)) ++
        s.drop (stop + 1))

/-- The unbounded `while True` loop of `strip_math`, with explicit
fuel; `none` would mean the loop ran out of fuel (claim C10 shows fuel
`s.length + 1` always suffices). -/
def stripMathFuel : Nat → List Char → Option (List Char)
  | 0, _ => none
  | f + 1, s =>
    match stripMathStep s with
    | none => some s
    | some s' => stripMathFuel f s'

/-- `strip_math(s)`: strips `:math:` labels; total because every loop
iteration strictly shortens the string. -/
def strip_math (s : List Char) : List Char :=
  (stripMathFuel (s.length + 1) s).getD s

/-! ## A small regex engine for subscript-to-math.py

The script's regular expressions use only literal characters, character
classes (`\w`, `\s`, `.`, `[^`]`, `[+–*]`, …), greedy `?` on groups and
classes, greedy `*`/`+` on classes, and lazy `+?` on a class.  `mrun`
returns every possible remainder in the backtracking preference order
of Python's `re` engine (greedy quantifiers longest first, lazy
shortest first); a search takes the first success at the leftmost
matching position. -/

inductive RE where
  | cls (f : Char → Bool)
  | eps
  | seq (a b : RE)
  | opt (p : RE)
  | starC (f : Char → Bool)
  | plusC (f : Char → Bool)
  | lazyPlusC (f : Char → Bool)

/-- All remainders after matching `p` against a prefix of the input, in
backtracking preference order. -/
def mrun : RE → List Char → List (List Char)
  | .cls _, [] => []
  | .cls f, c :: cs => if f c then [cs] else []
  | .eps, cs => [cs]
  | .seq a b, cs => (mrun a cs).flatMap (mrun b)
  | .opt p, cs => mrun p cs ++ [cs]
  | .starC f, cs =>
    let n := (cs.takeWhile f).length
    (List.range (n + 1)).map (fun i => cs.drop (n - i))
  | .plusC f, cs =>
    let n := (cs.takeWhile f).length
    (List.range n).map (fun i => cs.drop (n - i))
  | .lazyPlusC f, cs =>
    let n := (cs.takeWhile f).length
    (List.range n).map (fun i => cs.drop (i + 1))

/-- A sequence of regex pieces. -/
def reSeq (l : List RE) : RE := l.foldr RE.seq RE.eps

/-- A literal string as a regex. -/
def reStr (s : String) : RE := reSeq (s.data.map (fun c => RE.cls (· = c)))

/-- `re.search`: scan start positions left to right; on the first
position where the pattern matches, return
`(prefix, group(0), remainder)` using the engine's preferred match. -/
def reSearchGo (p : RE) (pre cs : List Char) :
    Option (List Char × List Char × List Char) :=
  match (mrun p cs).head? with
  | some rest => some (pre, cs.take (cs.length - rest.length), rest)
  | none =>
    match cs with
    | [] => none
    | c :: cs' => reSearchGo p (pre ++ [c]) cs'

/-- Fuel-driven worker for `reSub`. -/
def reSubF (p : RE) (repl : List Char → List Char) :
    Nat → List Char → List Char
  | 0, cs => cs
  | f + 1, cs =>
    match reSearchGo p [] cs with
    | none => cs
    | some (pre, g0, rest) => pre ++ repl g0 ++ reSubF p repl f rest

/-- `re.sub(p, repl, cs)`: replace every non-overlapping match, left to
right.  (The fuel never runs out for the patterns used here, whose
matches are non-empty.) -/
def reSub (p : RE) (repl : List Char → List Char) (cs : List Char) :
    List Char :=
  reSubF p repl (cs.length + 1) cs

/-! ## The patterns of `patch_subscript` (subscript-to-math.py, 78-89) -/

/-- Python `\w` (ASCII range; every input in the claims is ASCII). -/
def wordCh (c : Char) : Bool := c.isAlpha || c.isDigit || c = '_'

/-- Python `\s`. -/
def spaceCh (c : Char) : Bool :=
  c = ' ' || c = '\t' || c = '\n' || c = '\r' || c.toNat = 11 || c.toNat = 12

/-- Python `.` without DOTALL. -/
def dotCh (c : Char) : Bool := c ≠ '\n'

/-- The group `(\\\ )?`: an optional literal backslash-space. -/
def optBackSpace : RE := RE.opt (RE.seq (RE.cls (· = '\\')) (RE.cls (· = ' ')))

/-- The group `(\\\|)?`: an optional literal backslash-pipe. -/
def optBackPipe : RE := RE.opt (RE.seq (RE.cls (· = '\\')) (RE.cls (· = '|')))

/-- `sub = "\w+(\\\ )?:sub:`.+?`"`. -/
def subRE : RE :=
  reSeq [RE.plusC wordCh, optBackSpace, reStr ":sub:", RE.cls (· = btick),
    RE.lazyPlusC dotCh, RE.cls (· = btick)]

/-- `math = ":math:`[^`]*`(\\\ )?"`. -/
def mathRE : RE :=
  reSeq [reStr ":math:", RE.cls (· = btick), RE.starC (· ≠ btick),
    RE.cls (· = btick), optBackSpace]

/-- `unit = "[f|p|n|µ|u|m|k]?[m|V|A|Ω|F|H][\u00B2]?"` (the pipes are
characters of the classes). -/
def unitRE : RE :=
  reSeq [RE.opt (RE.cls (fun c =>
      c = 'f' || c = '|' || c = 'p' || c = 'n' || c = 'µ' || c = 'u' ||
        c = 'm' || c = 'k')),
    RE.cls (fun c =>
      c = 'm' || c = '|' || c = 'V' || c = 'A' || c = 'Ω' || c = 'F' || c = 'H'),
    RE.opt (RE.cls (· = '²'))]

/-- `value = "[+-]?[0-9]*[.]?[0-9]*(\s?" + unit + ")?"`. -/
def valueRE : RE :=
  reSeq [RE.opt (RE.cls (fun c => c = '+' || c = '-')), RE.starC Char.isDigit,
    RE.opt (RE.cls (· = '.')), RE.starC Char.isDigit,
    RE.opt (RE.seq (RE.opt (RE.cls spaceCh)) unitRE)]

/-- `div_sub = "(\\\|)?" + math + '/' + math + "(\\\ )?(\\\|)?"`. -/
def divRE : RE :=
  reSeq [optBackPipe, mathRE, RE.cls (· = '/'), mathRE, optBackSpace, optBackPipe]

/-- `diff_sub = "(\\\|)?" + math + '\s?[+–*]+\s' + math + "(\\\ )?(\\\|)?"`
(the class holds `+`, the en dash, and `*`). -/
def diffRE : RE :=
  reSeq [optBackPipe, mathRE, RE.opt (RE.cls spaceCh),
    RE.plusC (fun c => c = '+' || c = '–' || c = '*'), RE.cls spaceCh,
    mathRE, optBackSpace, optBackPipe]

/-- `eq_sub = "(\\\|)?" + math + "\s?[=|<|>]\s?" + value + "(\\\|)?"`. -/
def eqRE : RE :=
  reSeq [optBackPipe, mathRE, RE.opt (RE.cls spaceCh),
    RE.cls (fun c => c = '=' || c = '|' || c = '<' || c = '>'),
    RE.opt (RE.cls spaceCh), valueRE, optBackPipe]

/-- `bracedmath1 = "(\\\|)?" + math + "(\\\ )?(\\\|)?"`. -/
def bm1RE : RE := reSeq [optBackPipe, mathRE, optBackSpace, optBackPipe]

/-- `bracedmath2 = "[(]?" + math + "(\\\ )?[)]?"`. -/
def bm2RE : RE :=
  reSeq [RE.opt (RE.cls (· = '(')), mathRE, optBackSpace, RE.opt (RE.cls (· = ')'))]

/-! ## `patch_sub` and the per-line body of `patch_subscript` -/

/-- Python `str.strip()`. -/
def pyStrip (s : List Char) : List Char :=
  ((s.dropWhile spaceCh).reverse.dropWhile spaceCh).reverse

/-- `patch_sub(matchobj)` (lines 37-57): rewrite one `:sub:` expression
match into `:math:` notation. -/
def patch_sub (s0 : List Char) : List Char :=
  let s := replaceAll [btick] [] s0
  let s := replaceAll ['\\', ' '] [] s
  match findSub s ":sub:".data with
  | none => s
  | some i =>
    let head := s.take i
    let tail := s.drop (i + 5)
    let tail := if tail.length > 1 then '\x7b' :: tail ++ ['\x7d'] else tail
    ":math:".data ++ [btick] ++ head ++ ['_'] ++ tail ++ [btick]

/-- One iteration of the template loop of `patch_subscript`
(lines 97-123) for template `t`; `isDiv` records `template == div_sub`.
Returns `none` for the uncaught `IndexError` that Python's
`line[i]` would raise when the match ends exactly at the end of the
line. -/
def patchTemplate (isDiv : Bool) (t : RE) (line : List Char) :
    Option (List Char) :=
  match reSearchGo t [] line with
  | none => some line
  | some (_, g0, _) =>
    let patch := g0
    let pr :=
      if ['\\', '|'].isPrefixOf patch ∧ ['\\', '|'].isSuffixOf patch then
        ((patch.drop 2).take (patch.length - 4), (['|'], ['|']))
      else (patch, (([] : List Char), ([] : List Char)))
    let patch := pr.1
    let pr :=
      if ['('].isPrefixOf patch ∧ [')'].isSuffixOf patch then
        ((patch.drop 1).take (patch.length - 2), ((['('] : List Char), ([')'] : List Char)))
      else (patch, pr.2)
    let patch := pr.1
    let br := pr.2
    let patch := replaceAll ("\\ :sup:".data ++ [btick, '2', btick]) "^2".data patch
    let patch := pyStrip (replaceAll ['\\', ' '] [] patch)
    let patch := pyStrip (replaceAll "to".data " to ".data patch)
    let patch := strip_math patch
    let patch :=
      if isDiv then
        ":math:".data ++ [btick] ++ br.1 ++ "\\frac\x7b".data ++
          replaceAll ['/'] "\x7d\x7b".data patch ++ ['\x7d'] ++ br.2 ++ [btick]
      else ":math:".data ++ [btick] ++ br.1 ++ patch ++ br.2 ++ [btick]
    let i := (findSub line g0).getD 0
    let patch :=
      if i > 0 ∧ line.getD (i - 1) ' ' ≠ ' ' then '\\' :: ' ' :: patch else patch
    let j := i + g0.length
    match line.get? j with
    | none => none
    | some c =>
      let patch :=
        if c ≠ ' ' ∧ c ≠ '\\' ∧ c ≠ '\n' then patch ++ ['\\', ' '] else patch
      some (replaceAll g0 patch line)

/-- The five templates, in loop order, with the `template == div_sub`
flag. -/
def template_list : List (RE × Bool) :=
  [(divRE, true), (diffRE, false), (eqRE, false), (bm1RE, false), (bm2RE, false)]

/-- The per-line body of `patch_subscript` (lines 94-123): the `:sub:`
substitution followed by the five-template loop. -/
def patch_line (line0 : List Char) : Option (List Char) :=
  let line1 := reSub subRE patch_sub line0
  template_list.foldl (fun ol p => ol.bind (patchTemplate p.2 p.1)) (some line1)

/-! ## pyparsing's `commaSeparatedList` (used at line 142)

`pp.commaSeparatedList` is
`delimitedList(Optional(quotedString.copy() | _commasepitem, default=''))`
with

* `quotedString`: `Combine(Regex(r'"(?:[^"\n\r\\]|(?:"")|(?:\\(?:[^x]|x[0-9a-fA-F]+)))*') + '"')`
  or the same with single quotes: the content scan is greedy and
  deterministic (each alternative is tried in order, there is no
  backtracking into the star once it stops), and the closing quote must
  follow immediately where the scan stops;
* `_commasepitem`: `Combine(OneOrMore(Word(printables, excludeChars=',')
  + Optional(Word(" \t") + ~Literal(",") + ~LineEnd())))` — runs of
  ASCII printable non-comma characters joined by space/tab runs that
  are not followed by a comma or a line end;
* between items, `Suppress(',')` skips default whitespace (space, tab,
  newline) before the comma;
* `parseString` without `parseAll` stops silently at the first position
  where no further `,` follows an item.

`pyparsing`'s `printables` is ASCII 33-126, so any other non-whitespace
character (for instance `µ`, `²` or `…` — which is why the script
escapes `…` before parsing) ends an item and, unless a comma follows,
the whole parse. -/

/-- pyparsing default whitespace, skipped before tokens. -/
def isWsPP (c : Char) : Bool := c = ' ' || c = '\t' || c = '\n'

/-- The `Word(" \t")` characters of `_commasepitem`. -/
def isSpTab (c : Char) : Bool := c = ' ' || c = '\t'

/-- pyparsing `printables`: ASCII 33-126. -/
def printableCh (c : Char) : Bool := 33 ≤ c.toNat && c.toNat ≤ 126

/-- `Word(printables, excludeChars=',')` characters. -/
def itemCh (c : Char) : Bool := printableCh c && !(c = ',')

/-- `[0-9a-fA-F]`. -/
def isHexCh (c : Char) : Bool :=
  c.isDigit || ('a' ≤ c && c ≤ 'f') || ('A' ≤ c && c ≤ 'F')

/-- The greedy content scan of the quoted-string regex with quote
character `q`: starting after the opening quote, consume content
elements (`[^q\n\r\\]`, doubled quote, backslash escape — where `\x`
requires at least one hex digit) until none applies, and return the
remainder.  Fuel-driven (any fuel above the input length suffices). -/
def quotedBodyF (q : Char) : Nat → List Char → List Char
  | 0, s => s
  | _ + 1, [] => []
  | f + 1, c :: cs =>
    if c = '\n' || c = '\r' then c :: cs
    else if c = q then
      match cs with
      | c2 :: cs2 => if c2 = q then quotedBodyF q f cs2 else c :: cs
      | [] => c :: cs
    else if c = '\\' then
      match cs with
      | [] => c :: cs
      | c2 :: cs2 =>
        if c2 = 'x' then
          if cs2.takeWhile isHexCh = [] then c :: cs
          else quotedBodyF q f (cs2.drop (cs2.takeWhile isHexCh).length)
        else quotedBodyF q f cs2
    else quotedBodyF q f cs

/-- pyparsing quoted string with quote character `q` at the current
position: the content scan must stop exactly at a closing quote.
Returns `(matched text including quotes, remainder)`. -/
def tryQuoted (q : Char) (cs : List Char) : Option (List Char × List Char) :=
  match cs with
  | [] => none
  | c :: cs' =>
    if c = q then
      match quotedBodyF q cs'.length cs' with
      | r :: rs => if r = q then some (cs.take (cs.length - rs.length), rs) else none
      | [] => none
    else none

/-- `_commasepitem` from the current position: returns
`(item text, remainder)`.  Each iteration takes a `Word(printables,
excludeChars=',')` run and then optionally a space/tab run, kept only
when it is not followed (after whitespace skipping) by a comma, a line
end, or the end of input; the item ends when no further word run
follows.  Fuel-driven. -/
def plainItemF : Nat → List Char → List Char × List Char
  | 0, cs => ([], cs)
  | f + 1, cs =>
    let w := cs.takeWhile itemCh
    let r1 := cs.drop w.length
    let sp := r1.takeWhile isSpTab
    let r2 := r1.drop sp.length
    if sp = [] then (w, r1)
    else if (r2.dropWhile isWsPP).head? = some ',' then (w, r1)
    else if r2.head? = some '\n' ∨ r2 = [] then (w, r1)
    else if (r2.head?.map itemCh).getD false then
      let pr := plainItemF f r2
      (w ++ sp ++ pr.1, pr.2)
    else (w ++ sp, r2)

/-- One `Optional(quotedString | _commasepitem, default='')` item of
`commaSeparatedList`: skip leading whitespace, then try a double-quoted
string, a single-quoted string, and a plain item; an empty item when
none applies. -/
def parseItem (cs0 : List Char) : List Char × List Char :=
  let cs := cs0.dropWhile isWsPP
  match tryQuoted '"' cs with
  | some pr => pr
  | none =>
    match tryQuoted '\'' cs with
    | some pr => pr
    | none =>
      match cs with
      | c :: _ => if itemCh c then plainItemF cs.length cs else ([], cs)
      | [] => ([], cs)

/-- `delimitedList`: one item, then more items as long as a comma
follows (after whitespace); `parseString` without `parseAll` stops at
the first non-comma.  Fuel-driven. -/
def parseItemsF : Nat → List Char → List (List Char)
  | 0, _ => []
  | f + 1, cs =>
    if ((parseItem cs).2.dropWhile isWsPP).head? = some ',' then
      (parseItem cs).1 :: parseItemsF f ((parseItem cs).2.dropWhile isWsPP).tail
    else [(parseItem cs).1]

/-- `pp.commaSeparatedList.parseString(cs).asList()`. -/
def parseCommaList (cs : List Char) : List (List Char) :=
  parseItemsF (cs.length + 1) cs

/-! ## The per-line transform of `append_units_to_periphery_csv`
(lines 137-156) -/

/-- The horizontal-ellipsis character `…`. -/
def hellip : Char := '…'

/-- Its escape `'\...'` used around the comma-list parse. -/
def hellipEsc : List Char := "\\...".data

/-- The parsed-and-recovered field list of one line: escape `…`, parse
the comma list, recover an empty first field from the raw line's prefix
before its first comma (`l.partition(',')[0]`), and unescape every
field. -/
def lineFields (l : String) : List (List Char) :=
  let lcopy := replaceAll [hellip] hellipEsc l.data
  let fields0 := parseCommaList lcopy
  let fields1 :=
    match fields0 with
    | [] :: rest => l.data.takeWhile (fun c => !(c = ',')) :: rest
    | _ => fields0
  fields1.map (replaceAll hellipEsc [hellip])

/-- The per-line transform of the table rewrite loop: what the loop
body writes for the input line `l` (pass-through lines are written
unchanged). -/
def lineOut (l : String) : String :=
  if containsSub l.data ".-)".data || "Note:".data.isPrefixOf l.data then l
  else if (lineFields l).length ≠ 4 ∨
      "Errors".data.isSuffixOf ((lineFields l).getD 0 []) ∨
      (lineFields l).getD 0 [] ∈ [([] : List Char), ['\n'], "Rule".data] then l
  else
    String.mk (joinSep ','
      [(lineFields l).getD 0 [],
       (pick_units (String.mk ((lineFields l).getD 1 []))
         (String.mk ((lineFields l).getD 3 []))).2.data,
       (lineFields l).getD 2 [],
       (lineFields l).getD 3 [],
       (pick_units (String.mk ((lineFields l).getD 1 []))
         (String.mk ((lineFields l).getD 3 []))).1.data]
      ++ ['\n'])

/-- Characters that can occur in a plain (unquoted, quote-free) parsed
item: printable ASCII other than comma and quotes, or space/tab. -/
def GoodPlainCh (c : Char) : Prop :=
  (itemCh c = true ∧ c ≠ '"' ∧ c ≠ '\'') ∨ isSpTab c = true

/-- Characters that stop both an item and the whole parse: neither
ASCII-printable nor pyparsing whitespace (e.g. `µ`, `²`). -/
def DirtyCh (c : Char) : Prop :=
  printableCh c = false ∧ isWsPP c = false

instance decGoodPlainCh (c : Char) : Decidable (GoodPlainCh c) :=
  inferInstanceAs
    (Decidable ((itemCh c = true ∧ c ≠ '"' ∧ c ≠ '\'') ∨ isSpTab c = true))

instance decDirtyCh (c : Char) : Decidable (DirtyCh c) :=
  inferInstanceAs (Decidable (printableCh c = false ∧ isWsPP c = false))

/-- The characters of the unit labels substituted into descriptions by
the alias scan. -/
def labelChars : List Char := ['d', 'e', 'g', 'm', 'n', 'µ', '²']

/-- The characters that can occur in an inferred unit string. -/
def unitChars : List Char := labelChars ++ ['\\', '-', ' ']

/-! ## Helper lemmas about the `pick_units` phases -/

theorem aliasStep_not_found (toks : List (List Char)) (u : List Char)
    (acc : List (List Char) × List Char) (al : List Char)
    (h : al ∉ toks) : aliasStep toks u acc al = acc := by
  simp [aliasStep, h]

theorem aliasEntryFold_not_found (toks : List (List Char)) (u : String)
    (als : List String) (acc : List (List Char) × List Char)
    (h : ∀ a ∈ als, a.data ∉ toks) :
    als.foldl (fun a s => aliasStep toks u.data a s.data) acc = acc := by
  induction als generalizing acc with
  | nil => rfl
  | cons a as ih =>
    simp only [List.foldl_cons]
    rw [aliasStep_not_found _ _ _ _ (h a (by simp))]
    exact ih acc (fun x hx => h x (by simp [hx]))

theorem aliasPhase_not_found (toks : List (List Char)) (rdesc : List Char)
    (h : ∀ p ∈ desc_picks, ∀ a ∈ p.2, a.data ∉ toks) :
    aliasPhase toks rdesc = ([], rdesc) := by
  have main : ∀ (entries : List (String × List String))
      (acc : List (List Char) × List Char),
      (∀ p ∈ entries, ∀ a ∈ p.2, a.data ∉ toks) →
      entries.foldl
        (fun acc p => p.2.foldl (fun a s => aliasStep toks p.1.data a s.data) acc)
        acc = acc := by
    intro entries
    induction entries with
    | nil => intro acc _; rfl
    | cons e es ih =>
      intro acc he
      simp only [List.foldl_cons]
      rw [aliasEntryFold_not_found _ _ _ _ (he e (by simp))]
      exact ih acc (fun p hp => he p (by simp [hp]))
  exact main desc_picks ([], rdesc) h

theorem guessStep_not_found (ltoks : List (List Char)) (u : List Char)
    (unit : List (List Char)) (k : List Char)
    (h : k ∉ ltoks) : guessStep ltoks u unit k = unit := by
  have ht : k ∉ ltoks.take strong_guess_limit :=
    fun hm => h (List.take_subset _ _ hm)
  simp [guessStep, ht, h]

theorem guessEntryFold_not_found (ltoks : List (List Char)) (u : String)
    (ks : List String) (unit : List (List Char))
    (h : ∀ k ∈ ks, k.data ∉ ltoks) :
    ks.foldl (fun un k => guessStep ltoks u.data un k.data) unit = unit := by
  induction ks generalizing unit with
  | nil => rfl
  | cons k ks ih =>
    simp only [List.foldl_cons]
    rw [guessStep_not_found _ _ _ _ (h k (by simp))]
    exact ih unit (fun x hx => h x (by simp [hx]))

theorem guessFold_not_found (ltoks : List (List Char))
    (entries : List (String × List String)) (un : List (List Char))
    (h : ∀ p ∈ entries, ∀ k ∈ p.2, k.data ∉ ltoks) :
    entries.foldl
      (fun un p => p.2.foldl (fun un k => guessStep ltoks p.1.data un k.data) un)
      un = un := by
  induction entries generalizing un with
  | nil => rfl
  | cons e es ih =>
    simp only [List.foldl_cons]
    rw [guessEntryFold_not_found _ _ _ _ (h e (by simp))]
    exact ih un (fun p hp => h p (by simp [hp]))

theorem guessStep_shape (ltoks : List (List Char)) (u : List Char)
    (unit : List (List Char)) (k : List Char) :
    guessStep ltoks u unit k = unit ∨ guessStep ltoks u unit k = [u] := by
  simp only [guessStep]
  split
  · split
    · right; rfl
    · right; rfl
  · split
    · right; rfl
    · left; rfl

theorem guessEntryFold_shape (ltoks : List (List Char)) (u : String)
    (ks : List String) (unit : List (List Char)) :
    ks.foldl (fun un k => guessStep ltoks u.data un k.data) unit = unit ∨
      ks.foldl (fun un k => guessStep ltoks u.data un k.data) unit = [u.data] := by
  induction ks generalizing unit with
  | nil => left; rfl
  | cons k ks ih =>
    simp only [List.foldl_cons]
    rcases guessStep_shape ltoks u.data unit k.data with h | h
    · rw [h]; exact ih unit
    · rw [h]
      rcases ih [u.data] with h' | h' <;> right <;> simpa using h'

theorem guessPhase_shape (ltoks : List (List Char)) (unit : List (List Char)) :
    guessPhase ltoks unit = unit ∨
      ∃ p ∈ guess_keywords, guessPhase ltoks unit = [p.1.data] := by
  have main : ∀ (entries : List (String × List String))
      (un : List (List Char)),
      entries.foldl
        (fun un p => p.2.foldl (fun un k => guessStep ltoks p.1.data un k.data) un)
        un = un ∨
      ∃ p ∈ entries,
        entries.foldl
          (fun un p => p.2.foldl (fun un k => guessStep ltoks p.1.data un k.data) un)
          un = [p.1.data] := by
    intro entries
    induction entries with
    | nil => intro un; left; rfl
    | cons e es ih =>
      intro un
      simp only [List.foldl_cons]
      rcases guessEntryFold_shape ltoks e.1 e.2 un with h | h
      · rw [h]
        rcases ih un with h' | ⟨p, hp, h'⟩
        · left; exact h'
        · right; exact ⟨p, by simp [hp], h'⟩
      · rw [h]
        rcases ih [e.1.data] with h' | ⟨p, hp, h'⟩
        · right; exact ⟨e, by simp, h'⟩
        · right; exact ⟨p, by simp [hp], h'⟩
  exact main guess_keywords unit

/-! ## Claim theorems for `pick_units` -/

/-- Claim C1, counterexample: on the spec's own example
`pick_units("enclosure area of the region", "5")` the returned unit is
not `"µm"` (it is `"µm²"`): the `"area"` strong-guess keyword, which is
also within the first 2 tokens, overrides the earlier `"enclosure"`
candidate because the prefix-stripped suffixes `"m"` and `"m²"`
differ. -/
theorem c1_counterexample :
    (pick_units "enclosure area of the region" "5").1 ≠ "µm" := by decide

/-- Claim C1 (amended): `pick_units("enclosure area of the region", "5")`
returns unit `"µm²"` with the description unchanged: `"enclosure"` sets
the strong-guess candidate `µm`, and then the `"area"` keyword — itself
within the first 2 tokens — replaces it with `µm²`, since the
suffix-equality guard compares `"m²"` against `"m"` and fails. -/
theorem c1_amended :
    pick_units "enclosure area of the region" "5" =
      ("µm²", "enclosure area of the region") := by decide

/-- Claim C2, counterexample: `pick_units("spacing is 5um", "5")` does
not return `("µm", "spacing is 5µm")`: the alias `"um"` is not a
standalone token of the description (the token is `"5um"`), so no alias
substitution happens. -/
theorem c2_counterexample :
    pick_units "spacing is 5um" "5" ≠ ("µm", "spacing is 5µm") := by decide

/-- Claim C2 (amended): `pick_units("spacing is 5um", "5")` returns unit
`"µm"` — via the strong-guess keyword `"spacing"`, not via the alias
`"um"`, which does not occur as a token — and the description is
returned unchanged as `"spacing is 5um"`. -/
theorem c2_amended :
    pick_units "spacing is 5um" "5" = ("µm", "spacing is 5um") := by decide

/-- Claim C5: for every description `d`, `pick_units d "N/A"` returns
`("N/A", d)` and `pick_units d ""` returns `("", d)`; the no-unit-value
short circuit fires before any description scanning. -/
theorem c5_no_unit_short_circuit (d : String) :
    pick_units d "N/A" = ("N/A", d) ∧ pick_units d "" = ("", d) :=
  ⟨rfl, rfl⟩

/-- Claim C6: for a value outside the no-unit value set, the unit
string returned by `pick_units` is the candidate list deduplicated
preserving first occurrence and joined with single spaces; in
particular a description with no matching alias and no matching keyword
yields the empty unit string, and aliases of several distinct units
yield a space-joined multi-unit string. -/
theorem c6_finalize_dedup_join :
    (∀ d v : String, no_unit_values.lookup v = none →
        (pick_units d v).1 =
          String.mk (joinSep ' ' (dedupFirst (pick_units_candidates d)))) ∧
      (pick_units "no match here" "5").1 = "" ∧
      (pick_units "um [um] mm x" "5").1 = "mm µm" := by
  refine ⟨fun d v hv => ?_, by decide, by decide⟩
  simp [pick_units, hv, pick_units_candidates]

/-- Witness for C6 at a concrete input with duplicate alias hits. -/
theorem c6_finalize_dedup_join_witness :
    no_unit_values.lookup "5" = none ∧
      (pick_units "um [um] mm x" "5").1 =
        String.mk (joinSep ' ' (dedupFirst (pick_units_candidates "um [um] mm x"))) :=
  ⟨by decide, c6_finalize_dedup_join.1 "um [um] mm x" "5" (by decide)⟩

/-- Claim C7: if no catalog alias occurs as a token of the description,
no keyword of the real-unit categories occurs among the lowercased
tokens, but the keyword `"density"` does occur, then for a value
outside the no-unit set `pick_units` returns the placeholder
dash-escape literal `"\-"` as the unit string. -/
theorem c7_density_placeholder (d v : String)
    (hv : no_unit_values.lookup v = none)
    (halias : ∀ p ∈ desc_picks, ∀ a ∈ p.2,
      a.data ∉ splitP isDelim d.data)
    (hkw : ∀ p ∈ guess_keywords, p.1 ≠ "\\-" → ∀ k ∈ p.2,
      k.data ∉ (splitP isDelim d.data).map (List.map pyLower))
    (hdens : "density".data ∈ (splitP isDelim d.data).map (List.map pyLower)) :
    (pick_units d v).1 = "\\-" := by
  simp only [pick_units, hv, pick_units_core, allow_guessing, if_true]
  rw [aliasPhase_not_found _ _ halias]
  set lt := (splitP isDelim d.data).map (List.map pyLower) with hlt
  show String.mk (joinSep ' ' (dedupFirst (guessPhase lt []))) = "\\-"
  have hfront : ∀ p ∈ ([("deg", ["angle", "angles"]),
      ("µm", ["length", "width", "space", "spacing", "distance", "enclosure",
              "enclosed", "step", "l", "w", "differ", "size", "within"]),
      ("µm²", ["area"])] : List (String × List String)), ∀ k ∈ p.2, k.data ∉ lt := by
    intro p hp
    fin_cases hp
    · exact hkw _ (by simp [guess_keywords]) (by decide)
    · exact hkw _ (by simp [guess_keywords]) (by decide)
    · exact hkw _ (by simp [guess_keywords]) (by decide)
  have hsplit : guess_keywords = ([("deg", ["angle", "angles"]),
      ("µm", ["length", "width", "space", "spacing", "distance", "enclosure",
              "enclosed", "step", "l", "w", "differ", "size", "within"]),
      ("µm²", ["area"])] : List (String × List String)) ++
      [("\\-", ["density"])] := rfl
  have hphase : guessPhase lt [] = ["\\-".data] := by
    unfold guessPhase
    rw [hsplit, List.foldl_append, guessFold_not_found lt _ [] hfront]
    simp only [List.foldl_cons, List.foldl_nil]
    by_cases hstrong : "density".data ∈ lt.take strong_guess_limit
    · simp [guessStep, hstrong]
    · simp [guessStep, hstrong, hdens]
  rw [hphase]
  decide

/-- Witness for C7 at the concrete input `("density of metal", "5")`. -/
theorem c7_density_placeholder_witness :
    no_unit_values.lookup "5" = none ∧
      (pick_units "density of metal" "5").1 = "\\-" :=
  ⟨by decide,
    c7_density_placeholder "density of metal" "5" (by decide) (by decide)
      (by decide) (by decide)⟩

/-- Claim C9 (implicit): if no catalog alias occurs as a token of the
description and the value is outside the no-unit set, the unit string
is either empty or a single keyword-catalog label (a real unit or the
density placeholder): keyword guessing alone never produces a
space-joined multi-unit string, because both guess branches replace the
candidate list with a one-element list. -/
theorem c9_guess_single_label (d v : String)
    (hv : no_unit_values.lookup v = none)
    (halias : ∀ p ∈ desc_picks, ∀ a ∈ p.2,
      a.data ∉ splitP isDelim d.data) :
    (pick_units d v).1 = "" ∨
      ∃ p ∈ guess_keywords, (pick_units d v).1 = p.1 := by
  simp only [pick_units, hv, pick_units_core, allow_guessing, if_true]
  rw [aliasPhase_not_found _ _ halias]
  rcases guessPhase_shape ((splitP isDelim d.data).map (List.map pyLower)) []
    with h | ⟨p, hp, h⟩
  · left; rw [h]; rfl
  · right
    refine ⟨p, hp, ?_⟩
    rw [h]
    show String.mk (joinSep ' ' (dedupFirst [p.1.data])) = p.1
    rfl

/-- Witness for C9 at the concrete input `("some width thing", "5")`. -/
theorem c9_guess_single_label_witness :
    no_unit_values.lookup "5" = none ∧
      ((pick_units "some width thing" "5").1 = "" ∨
        ∃ p ∈ guess_keywords, (pick_units "some width thing" "5").1 = p.1) :=
  ⟨by decide, c9_guess_single_label "some width thing" "5" (by decide) (by decide)⟩

/-! ## Generic list lemmas for the parser development (C3) -/

theorem takeWhile_append_all {p : Char → Bool} {a : List Char} (b : List Char)
    (h : ∀ c ∈ a, p c = true) : (a ++ b).takeWhile p = a ++ b.takeWhile p := by
  induction a with
  | nil => rfl
  | cons x xs ih =>
    simp only [List.cons_append, List.takeWhile_cons, h x (by simp), if_true]
    rw [ih (fun c hc => h c (by simp [hc]))]

theorem dropWhile_append_all {p : Char → Bool} {a : List Char} (b : List Char)
    (h : ∀ c ∈ a, p c = true) : (a ++ b).dropWhile p = b.dropWhile p := by
  induction a with
  | nil => rfl
  | cons x xs ih =>
    simp only [List.cons_append, List.dropWhile_cons, h x (by simp), if_true]
    exact ih (fun c hc => h c (by simp [hc]))

theorem takeWhile_append_eq {p : Char → Bool} {a : List Char} {c : Char}
    (b : List Char) (h : p c = false) :
    (a ++ c :: b).takeWhile p = a.takeWhile p := by
  induction a with
  | nil => simp [List.takeWhile_cons, h]
  | cons x xs ih =>
    simp only [List.cons_append, List.takeWhile_cons]
    cases hpx : p x
    · rfl
    · rw [ih]

theorem dropWhile_append_eq {p : Char → Bool} {a : List Char} {c : Char}
    (b : List Char) (h : p c = false) :
    (a ++ c :: b).dropWhile p = a.dropWhile p ++ c :: b := by
  induction a with
  | nil => simp [List.dropWhile_cons, h]
  | cons x xs ih =>
    simp only [List.cons_append, List.dropWhile_cons]
    cases hpx : p x
    · simp
    · simpa using ih

theorem dropWhile_idem (p : Char → Bool) (l : List Char) :
    (l.dropWhile p).dropWhile p = l.dropWhile p := by
  induction l with
  | nil => rfl
  | cons x xs ih =>
    by_cases hx : p x = true
    · simpa [List.dropWhile_cons, hx] using ih
    · have hx' : p x = false := by revert hx; cases p x <;> simp
      simp [List.dropWhile_cons, hx']

theorem comma_prefix_unique {x y x' y' : List Char} (c : Char)
    (h : x ++ c :: y = x' ++ c :: y') (hx : c ∉ x) (hx' : c ∉ x') :
    x = x' ∧ y = y' := by
  have htw : ∀ (a b : List Char), c ∉ a →
      (a ++ c :: b).takeWhile (fun d => !(d = c)) = a := by
    intro a b ha
    have hall : ∀ d ∈ a, (fun d => !(d = c)) d = true := by
      intro d hd
      simp only [Bool.not_eq_true', decide_eq_false_iff_not]
      exact fun hdc => ha (hdc ▸ hd)
    rw [takeWhile_append_all _ hall]
    simp [List.takeWhile_cons]
  have h1 : x = x' := by
    have := htw x y hx
    rw [h, htw x' y' hx'] at this
    exact this.symm
  refine ⟨h1, ?_⟩
  subst h1
  have h2 : (c :: y : List Char) = c :: y' := List.append_cancel_left h
  simpa using h2

/-! ## `replaceAll` lemmas (C3) -/

theorem replaceAllF_fuel (pat rep : List Char) :
    ∀ (f g : Nat) (s : List Char), s.length ≤ f → s.length ≤ g →
      replaceAllF pat rep f s = replaceAllF pat rep g s := by
  intro f
  induction f with
  | zero =>
    intro g s hf _
    have : s = [] := by cases s <;> simp_all
    subst this
    cases g <;> rfl
  | succ n ih =>
    intro g s hf hg
    cases s with
    | nil => cases g <;> rfl
    | cons c cs =>
      cases g with
      | zero => simp at hg
      | succ m =>
        have hlc : cs.length + 1 ≤ n + 1 := by simpa using hf
        have hlcm : cs.length + 1 ≤ m + 1 := by simpa using hg
        simp only [replaceAllF]
        split
        · next hp =>
          have hpl : 1 ≤ pat.length := by
            rcases hp with ⟨hne, -⟩
            cases pat with
            | nil => simp at hne
            | cons _ _ => simp
          have h1 : ((c :: cs).drop pat.length).length ≤ n := by
            simp only [List.length_drop, List.length_cons]; omega
          have h2 : ((c :: cs).drop pat.length).length ≤ m := by
            simp only [List.length_drop, List.length_cons]; omega
          rw [ih m _ h1 h2]
        · rw [ih m cs (by omega) (by omega)]

theorem replaceAll_nil (pat rep : List Char) : replaceAll pat rep [] = [] := by
  simp [replaceAll, replaceAllF]

theorem replace1_cons (a : Char) (rep : List Char) (c : Char) (s : List Char) :
    replaceAll [a] rep (c :: s) =
      if c = a then rep ++ replaceAll [a] rep s else c :: replaceAll [a] rep s := by
  unfold replaceAll
  simp only [List.length_cons, replaceAllF]
  by_cases hc : c = a
  · subst hc
    rw [if_pos (by simp [List.isPrefixOf])]
    simp
  · rw [if_neg (by simp [List.isPrefixOf]; intro h; exact absurd h.symm hc), if_neg hc]

theorem replace1_append (a : Char) (rep : List Char) (x y : List Char) :
    replaceAll [a] rep (x ++ y) =
      replaceAll [a] rep x ++ replaceAll [a] rep y := by
  induction x with
  | nil => simp [replaceAll_nil]
  | cons c cs ih =>
    simp only [List.cons_append, replace1_cons]
    by_cases hc : c = a <;> simp [hc, ih]

theorem mem_replaceAllF (pat rep : List Char) :
    ∀ (f : Nat) (s : List Char) (c : Char),
      c ∈ replaceAllF pat rep f s → c ∈ s ∨ c ∈ rep := by
  intro f
  induction f with
  | zero => intro s c h; exact Or.inl h
  | succ n ih =>
    intro s c h
    cases s with
    | nil => simp [replaceAllF] at h
    | cons d ds =>
      simp only [replaceAllF] at h
      split at h
      · rcases List.mem_append.mp h with h' | h'
        · exact Or.inr h'
        · rcases ih _ c h' with h'' | h''
          · exact Or.inl (List.drop_subset _ _ h'')
          · exact Or.inr h''
      · rcases List.mem_cons.mp h with h' | h'
        · exact Or.inl (by simp [h'])
        · rcases ih _ c h' with h'' | h''
          · exact Or.inl (by simp [h''])
          · exact Or.inr h''

theorem mem_replaceAll (pat rep s : List Char) (c : Char)
    (h : c ∈ replaceAll pat rep s) : c ∈ s ∨ c ∈ rep :=
  mem_replaceAllF pat rep s.length s c h

theorem mem_replace1 (a : Char) (rep s : List Char) (c : Char)
    (h : c ∈ replaceAll [a] rep s) : (c ∈ s ∧ c ≠ a) ∨ c ∈ rep := by
  induction s with
  | nil => rw [replaceAll_nil] at h; cases h
  | cons d ds ih =>
    rw [replace1_cons] at h
    by_cases hd : d = a
    · rw [if_pos hd] at h
      rcases List.mem_append.mp h with h' | h'
      · exact Or.inr h'
      · rcases ih h' with h'' | h''
        · exact Or.inl ⟨by simp [h''.1], h''.2⟩
        · exact Or.inr h''
    · rw [if_neg hd] at h
      rcases List.mem_cons.mp h with h' | h'
      · subst h'; exact Or.inl ⟨by simp, hd⟩
      · rcases ih h' with h'' | h''
        · exact Or.inl ⟨by simp [h''.1], h''.2⟩
        · exact Or.inr h''

theorem mem_replace1_of_mem (a : Char) (rep s : List Char) (c : Char)
    (hc : c ∈ s) (hne : c ≠ a) : c ∈ replaceAll [a] rep s := by
  induction s with
  | nil => cases hc
  | cons d ds ih =>
    rw [replace1_cons]
    rcases List.mem_cons.mp hc with h' | h'
    · subst h'
      rw [if_neg hne]
      simp
    · by_cases hd : d = a <;> simp [hd, ih h']

theorem mem_rep_of_mem_pat (a : Char) (rep s : List Char) (x : Char)
    (ha : a ∈ s) (hx : x ∈ rep) : x ∈ replaceAll [a] rep s := by
  induction s with
  | nil => cases ha
  | cons d ds ih =>
    rw [replace1_cons]
    by_cases hd : d = a
    · rw [if_pos hd]; exact List.mem_append.mpr (Or.inl hx)
    · rw [if_neg hd]
      rcases List.mem_cons.mp ha with h' | h'
      · exact absurd h'.symm hd
      · simp [ih h']

theorem replaceAll_head_not_mem (pat rep s : List Char) (ph : Char)
    (hp : ∃ pt, pat = ph :: pt) (hm : ph ∉ s) : replaceAll pat rep s = s := by
  obtain ⟨pt, rfl⟩ := hp
  suffices h : ∀ (f : Nat) (s : List Char), ph ∉ s →
      replaceAllF (ph :: pt) rep f s = s by
    exact h s.length s hm
  intro f
  induction f with
  | zero => intro s _; rfl
  | succ n ih =>
    intro s hs
    cases s with
    | nil => rfl
    | cons c cs =>
      simp only [replaceAllF]
      rw [if_neg, ih cs (fun h => hs (by simp [h]))]
      rintro ⟨-, hpre⟩
      have hpc : ph = c ∧ pt.isPrefixOf cs := by simpa [List.isPrefixOf] using hpre
      exact hs (by simp [hpc.1])

/-! ## Suffix and fuel lemmas for the comma-list parser (C3) -/

theorem quotedBodyF_suffix (q : Char) :
    ∀ (f : Nat) (s : List Char), quotedBodyF q f s <:+ s := by
  intro f
  induction f with
  | zero => intro s; exact List.suffix_refl s
  | succ n ih =>
    intro s
    cases s with
    | nil => exact List.suffix_refl _
    | cons c cs =>
      simp only [quotedBodyF]
      split
      · exact List.suffix_refl _
      · split
        · split
          · split
            · exact ((ih _).trans (List.suffix_cons _ _)).trans (List.suffix_cons _ _)
            · exact List.suffix_refl _
          · exact List.suffix_refl _
        · split
          · split
            · exact List.suffix_refl _
            · split
              · split
                · exact List.suffix_refl _
                · exact (((ih _).trans (List.drop_suffix _ _)).trans
                    (List.suffix_cons _ _)).trans (List.suffix_cons _ _)
              · exact ((ih _).trans (List.suffix_cons _ _)).trans (List.suffix_cons _ _)
          · exact (ih _).trans (List.suffix_cons _ _)

theorem tryQuoted_rest (q : Char) (cs : List Char) (pr : List Char × List Char)
    (h : tryQuoted q cs = some pr) : pr.2 <:+ cs ∧ pr.2.length < cs.length := by
  cases cs with
  | nil => simp [tryQuoted] at h
  | cons c cs' =>
    by_cases hc : c = q
    · simp only [tryQuoted, if_pos hc] at h
      cases hb : quotedBodyF q cs'.length cs' with
      | nil => rw [hb] at h; cases h
      | cons r rs =>
        rw [hb] at h
        dsimp only at h
        by_cases hr : r = q
        · rw [if_pos hr] at h
          injection h with h
          subst h
          have h1 : (r :: rs : List Char) <:+ cs' := by
            rw [← hb]; exact quotedBodyF_suffix q _ cs'
          have h2 : (rs : List Char) <:+ cs' :=
            (List.suffix_cons r rs).trans h1
          refine ⟨h2.trans (List.suffix_cons c cs'), ?_⟩
          have hle := h1.length_le
          simp only [List.length_cons] at hle ⊢
          omega
        · rw [if_neg hr] at h; cases h
    · simp only [tryQuoted, if_neg hc] at h; cases h

theorem plainItemF_rest_suffix :
    ∀ (f : Nat) (cs : List Char), (plainItemF f cs).2 <:+ cs := by
  intro f
  induction f with
  | zero => intro cs; exact List.suffix_refl _
  | succ n ih =>
    intro cs
    simp only [plainItemF]
    split
    · exact List.drop_suffix _ _
    · split
      · exact List.drop_suffix _ _
      · split
        · exact List.drop_suffix _ _
        · split
          · exact ((ih _).trans (List.drop_suffix _ _)).trans (List.drop_suffix _ _)
          · exact (List.drop_suffix _ _).trans (List.drop_suffix _ _)

theorem parseItem_rest_suffix (cs : List Char) : (parseItem cs).2 <:+ cs := by
  simp only [parseItem]
  split
  · next pr h =>
    exact ((tryQuoted_rest '"' _ pr h).1).trans (List.dropWhile_suffix _)
  · split
    · next pr h =>
      exact ((tryQuoted_rest '\'' _ pr h).1).trans (List.dropWhile_suffix _)
    · split
      · split
        · exact (plainItemF_rest_suffix _ _).trans (List.dropWhile_suffix _)
        · exact List.dropWhile_suffix _
      · exact List.dropWhile_suffix _

theorem parseItem_rest_length (cs : List Char) :
    (parseItem cs).2.length ≤ cs.length :=
  (parseItem_rest_suffix cs).length_le

theorem plainItemF_fuel :
    ∀ (f g : Nat) (cs : List Char), cs.length ≤ f → cs.length ≤ g →
      plainItemF f cs = plainItemF g cs := by
  intro f
  induction f with
  | zero =>
    intro g cs hf _
    have : cs = [] := by cases cs <;> simp_all
    subst this
    cases g <;> simp [plainItemF]
  | succ n ih =>
    intro g cs hf hg
    cases g with
    | zero =>
      have : cs = [] := by cases cs <;> simp_all
      subst this
      simp [plainItemF]
    | succ m =>
      simp only [plainItemF]
      split
      · rfl
      next hsp =>
        split
        · rfl
        next =>
          split
          · rfl
          next =>
            split
            next =>
              have hlt : ((cs.drop (cs.takeWhile itemCh).length).drop
                  ((cs.drop (cs.takeWhile itemCh).length).takeWhile isSpTab).length).length
                  < cs.length := by
                cases hcs : cs with
                | nil => rw [hcs] at hsp; simp at hsp
                | cons a as =>
                  rw [← hcs]
                  have h1 : (cs.drop (cs.takeWhile itemCh).length).takeWhile isSpTab ≠ [] := hsp
                  have h2 : 1 ≤ ((cs.drop (cs.takeWhile itemCh).length).takeWhile isSpTab).length := by
                    cases hx : (cs.drop (cs.takeWhile itemCh).length).takeWhile isSpTab with
                    | nil => exact absurd hx h1
                    | cons _ _ => simp
                  have h3 : ((cs.drop (cs.takeWhile itemCh).length).takeWhile isSpTab).length ≤
                      (cs.drop (cs.takeWhile itemCh).length).length :=
                    (List.takeWhile_prefix _).length_le
                  simp only [List.length_drop, hcs, List.length_cons] at h2 h3 ⊢
                  omega
              rw [ih m _ (by omega) (by omega)]
            next => rfl

theorem parseItemsF_fuel :
    ∀ (f g : Nat) (cs : List Char), cs.length < f → cs.length < g →
      parseItemsF f cs = parseItemsF g cs := by
  intro f
  induction f with
  | zero => intro g cs hf _; omega
  | succ n ih =>
    intro g cs hf hg
    cases g with
    | zero => omega
    | succ m =>
      simp only [parseItemsF]
      split
      · next hhead =>
        have hlen : ((parseItem cs).2.dropWhile isWsPP).tail.length < cs.length := by
          have h1 : ((parseItem cs).2.dropWhile isWsPP).length ≤ cs.length :=
            le_trans (List.dropWhile_suffix _).length_le (parseItem_rest_length cs)
          have h2 : (parseItem cs).2.dropWhile isWsPP ≠ [] := by
            intro hx; rw [hx] at hhead; cases hhead
          cases hx : (parseItem cs).2.dropWhile isWsPP with
          | nil => exact absurd hx h2
          | cons a as =>
            rw [hx] at h1
            simp only [hx, List.tail_cons, List.length_cons] at h1 ⊢
            omega
        rw [ih m _ (by omega) (by omega)]
      · rfl

theorem parseCommaList_cons (cs r2 : List Char)
    (h : (parseItem cs).2.dropWhile isWsPP = ',' :: r2) :
    parseCommaList cs = (parseItem cs).1 :: parseCommaList r2 := by
  have hlen : r2.length < cs.length := by
    have h1 : ((parseItem cs).2.dropWhile isWsPP).length ≤ cs.length :=
      le_trans (List.dropWhile_suffix _).length_le (parseItem_rest_length cs)
    rw [h] at h1
    simp only [List.length_cons] at h1
    omega
  unfold parseCommaList
  rw [parseItemsF, h]
  simp only [List.head?_cons, List.tail_cons]
  rw [if_pos trivial]
  congr 1
  exact parseItemsF_fuel cs.length (r2.length + 1) r2 hlen (by omega)

theorem parseCommaList_stop (cs : List Char)
    (h : ((parseItem cs).2.dropWhile isWsPP).head? ≠ some ',') :
    parseCommaList cs = [(parseItem cs).1] := by
  unfold parseCommaList
  rw [parseItemsF, if_neg h]

/-! ## Consumption of clean segments by the parser (C3) -/

theorem drop_takeWhile_length (p : Char → Bool) (l : List Char) :
    l.drop (l.takeWhile p).length = l.dropWhile p := by
  induction l with
  | nil => rfl
  | cons c cs ih =>
    simp only [List.takeWhile_cons, List.dropWhile_cons]
    cases hpc : p c
    · simp
    · simpa using ih

theorem ws_not_printable {c : Char} (h : isWsPP c = true) :
    printableCh c = false := by
  have h' : (c = ' ' ∨ c = '\t') ∨ c = '\n' := by simpa [isWsPP, or_assoc] using h
  rcases h' with (h' | h') | h' <;> subst h' <;> decide

theorem itemCh_not_ws {c : Char} (h : itemCh c = true) : isWsPP c = false := by
  cases hw : isWsPP c
  · rfl
  · have := ws_not_printable hw
    simp [itemCh, this] at h

theorem itemCh_ne_comma {c : Char} (h : itemCh c = true) : c ≠ ',' := by
  intro hc
  subst hc
  simp [itemCh] at h

theorem itemCh_ne_newline {c : Char} (h : itemCh c = true) : c ≠ '\n' := by
  intro hc
  subst hc
  simp [itemCh, printableCh] at h

theorem sptab_isWsPP {c : Char} (h : isSpTab c = true) : isWsPP c = true := by
  have h' : c = ' ' ∨ c = '\t' := by simpa [isSpTab] using h
  rcases h' with h' | h' <;> subst h' <;> decide

theorem plainItemF_comma :
    ∀ (f : Nat) (p rest : List Char),
      p.length + 1 + rest.length ≤ f →
      (∀ c ∈ p, GoodPlainCh c) →
      ∃ t, (plainItemF f (p ++ ',' :: rest)).2 = t ++ ',' :: rest ∧
        ∀ c ∈ t, isSpTab c = true := by
  intro f
  induction f with
  | zero => intro p rest hf _; omega
  | succ n ih =>
    intro p rest hf hp
    have hcomma : itemCh ',' = false := by decide
    have hcommasp : isSpTab ',' = false := by decide
    simp only [plainItemF]
    rw [drop_takeWhile_length, drop_takeWhile_length,
      takeWhile_append_eq (p := itemCh) rest hcomma,
      dropWhile_append_eq (p := itemCh) rest hcomma]
    set q1 := p.dropWhile itemCh with hq1def
    rw [takeWhile_append_eq (p := isSpTab) rest hcommasp,
      dropWhile_append_eq (p := isSpTab) rest hcommasp]
    have hq1good : ∀ c ∈ q1, GoodPlainCh c :=
      fun c hc => hp c ((List.dropWhile_suffix itemCh).subset hc)
    by_cases hsp : q1.takeWhile isSpTab = []
    · -- the space run is empty, so the item word run reached the comma
      rw [if_pos hsp]
      have hq1 : q1 = [] := by
        cases hq : q1 with
        | nil => rfl
        | cons a as =>
          have ha : itemCh a = false := by
            have := List.head?_dropWhile_not itemCh p
            rw [← hq1def, hq] at this
            simpa using this
          have hga : GoodPlainCh a := hq1good a (by rw [hq]; simp)
          have hsptab : isSpTab a = true := by
            rcases hga with ⟨h1, -⟩ | h1
            · rw [ha] at h1; cases h1
            · exact h1
          rw [hq] at hsp
          simp [List.takeWhile_cons, hsptab] at hsp
      exact ⟨[], by rw [hq1], by intro c hc; cases hc⟩
    · rw [if_neg hsp]
      set q2 := q1.dropWhile isSpTab with hq2def
      have hq2good : ∀ c ∈ q2, GoodPlainCh c :=
        fun c hc => hq1good c ((List.dropWhile_suffix isSpTab).subset hc)
      cases hq2 : q2 with
      | nil =>
        -- only spaces before the comma: the trailing-space guard fires
        simp only [List.nil_append]
        have hcond : (((',' :: rest : List Char)).dropWhile isWsPP).head? = some ',' := by
          have hws : isWsPP ',' = false := by decide
          simp [List.dropWhile_cons, hws]
        rw [if_pos hcond]
        refine ⟨q1, rfl, ?_⟩
        have : q1 = q1.takeWhile isSpTab := by
          conv_lhs => rw [← List.takeWhile_append_dropWhile (p := isSpTab) (l := q1)]
          rw [← hq2def, hq2]
          simp
        intro c hc
        rw [this] at hc
        exact List.mem_takeWhile_imp hc
      | cons b bs =>
        have hbgood : GoodPlainCh b := hq2good b (by rw [hq2]; simp)
        have hbnotsp : isSpTab b = false := by
          have := List.head?_dropWhile_not isSpTab q1
          rw [← hq2def, hq2] at this
          simpa using this
        have hbitem : itemCh b = true := by
          rcases hbgood with ⟨h1, -⟩ | h1
          · exact h1
          · rw [hbnotsp] at h1; cases h1
        have hbnotws : isWsPP b = false := itemCh_not_ws hbitem
        have hdw : (((b :: bs) ++ ',' :: rest : List Char).dropWhile isWsPP) =
            (b :: bs) ++ ',' :: rest := by
          simp [List.dropWhile_cons, hbnotws]
        rw [hdw]
        have hgc : ¬ (((b :: bs) ++ ',' :: rest : List Char).head? = some ',') := by
          simp only [List.cons_append, List.head?_cons]
          intro hx
          exact itemCh_ne_comma hbitem (by injection hx)
        rw [if_neg hgc]
        have hgl : ¬ (((b :: bs) ++ ',' :: rest : List Char).head? = some '\n' ∨
            ((b :: bs) ++ ',' :: rest : List Char) = []) := by
          rintro (hx | hx)
          · simp only [List.cons_append, List.head?_cons] at hx
            exact itemCh_ne_newline hbitem (by injection hx)
          · simp at hx
        rw [if_neg hgl]
        have hgw : ((((b :: bs) ++ ',' :: rest : List Char)).head?.map itemCh).getD false
            = true := by
          simp [hbitem]
        rw [if_pos hgw]
        have hlq2 : (b :: bs).length + 1 + rest.length ≤ n := by
          have e1 : q1.length = (q1.takeWhile isSpTab).length + q2.length := by
            conv_lhs => rw [← List.takeWhile_append_dropWhile (p := isSpTab) (l := q1)]
            rw [← hq2def, List.length_append]
          have e2 : p.length = (p.takeWhile itemCh).length + q1.length := by
            conv_lhs => rw [← List.takeWhile_append_dropWhile (p := itemCh) (l := p)]
            rw [← hq1def, List.length_append]
          have e3 : 1 ≤ (q1.takeWhile isSpTab).length := by
            cases hx : q1.takeWhile isSpTab with
            | nil => exact absurd hx hsp
            | cons _ _ => simp
          have e4 : q2.length = (b :: bs).length := by rw [hq2]
          simp only [List.length_cons] at e4 ⊢
          omega
        obtain ⟨t, ht1, ht2⟩ := ih (b :: bs) rest hlq2 (by rw [← hq2]; exact hq2good)
        refine ⟨t, ?_, ht2⟩
        simpa using ht1

theorem dirty_not_item {c : Char} (h : DirtyCh c) : itemCh c = false := by
  rcases h with ⟨h1, -⟩
  simp [itemCh, h1]

theorem dirty_not_sptab {c : Char} (h : DirtyCh c) : isSpTab c = false := by
  rcases h with ⟨-, h2⟩
  cases hx : isSpTab c
  · rfl
  · rw [sptab_isWsPP hx] at h2; cases h2

theorem dirty_ne_comma {c : Char} (h : DirtyCh c) : c ≠ ',' := by
  rintro rfl
  rcases h with ⟨h1, -⟩
  simp [printableCh] at h1

theorem dirty_ne_newline {c : Char} (h : DirtyCh c) : c ≠ '\n' := by
  rintro rfl
  rcases h with ⟨-, h2⟩
  simp [isWsPP] at h2

theorem dirty_ne_quote {c : Char} (h : DirtyCh c) : c ≠ '"' ∧ c ≠ '\'' := by
  constructor <;> rintro rfl <;> rcases h with ⟨h1, -⟩ <;> simp [printableCh] at h1

theorem plainItemF_dirty :
    ∀ (f : Nat) (p z : List Char) (c₀ : Char),
      p.length + 1 + z.length ≤ f →
      (∀ c ∈ p, GoodPlainCh c) → DirtyCh c₀ →
      (plainItemF f (p ++ c₀ :: z)).2 = c₀ :: z := by
  intro f
  induction f with
  | zero => intro p z c₀ hf _ _; omega
  | succ n ih =>
    intro p z c₀ hf hp hd
    have hcomma : itemCh c₀ = false := dirty_not_item hd
    have hcommasp : isSpTab c₀ = false := dirty_not_sptab hd
    have hc₀ws : isWsPP c₀ = false := hd.2
    simp only [plainItemF]
    rw [drop_takeWhile_length, drop_takeWhile_length,
      takeWhile_append_eq (p := itemCh) z hcomma,
      dropWhile_append_eq (p := itemCh) z hcomma]
    set q1 := p.dropWhile itemCh with hq1def
    rw [takeWhile_append_eq (p := isSpTab) z hcommasp,
      dropWhile_append_eq (p := isSpTab) z hcommasp]
    have hq1good : ∀ c ∈ q1, GoodPlainCh c :=
      fun c hc => hp c ((List.dropWhile_suffix itemCh).subset hc)
    by_cases hsp : q1.takeWhile isSpTab = []
    · rw [if_pos hsp]
      have hq1 : q1 = [] := by
        cases hq : q1 with
        | nil => rfl
        | cons a as =>
          have ha : itemCh a = false := by
            have := List.head?_dropWhile_not itemCh p
            rw [← hq1def, hq] at this
            simpa using this
          have hga : GoodPlainCh a := hq1good a (by rw [hq]; simp)
          have hsptab : isSpTab a = true := by
            rcases hga with ⟨h1, -⟩ | h1
            · rw [ha] at h1; cases h1
            · exact h1
          rw [hq] at hsp
          simp [List.takeWhile_cons, hsptab] at hsp
      rw [hq1]
      simp
    · rw [if_neg hsp]
      set q2 := q1.dropWhile isSpTab with hq2def
      have hq2good : ∀ c ∈ q2, GoodPlainCh c :=
        fun c hc => hq1good c ((List.dropWhile_suffix isSpTab).subset hc)
      cases hq2 : q2 with
      | nil =>
        simp only [List.nil_append]
        have hcond : ¬ (((c₀ :: z : List Char)).dropWhile isWsPP).head? = some ',' := by
          simp only [List.dropWhile_cons, hc₀ws]
          simp only [Bool.false_eq_true, if_false, List.head?_cons]
          intro hx
          exact dirty_ne_comma hd (by injection hx)
        rw [if_neg hcond]
        have hgl : ¬ ((c₀ :: z : List Char).head? = some '\n' ∨
            (c₀ :: z : List Char) = []) := by
          rintro (hx | hx)
          · simp only [List.head?_cons] at hx
            exact dirty_ne_newline hd (by injection hx)
          · cases hx
        rw [if_neg hgl]
        have hgw : ¬ (((c₀ :: z : List Char)).head?.map itemCh).getD false = true := by
          simp [hcomma]
        rw [if_neg hgw]
      | cons b bs =>
        have hbgood : GoodPlainCh b := hq2good b (by rw [hq2]; simp)
        have hbnotsp : isSpTab b = false := by
          have := List.head?_dropWhile_not isSpTab q1
          rw [← hq2def, hq2] at this
          simpa using this
        have hbitem : itemCh b = true := by
          rcases hbgood with ⟨h1, -⟩ | h1
          · exact h1
          · rw [hbnotsp] at h1; cases h1
        have hbnotws : isWsPP b = false := itemCh_not_ws hbitem
        have hdw : (((b :: bs) ++ c₀ :: z : List Char).dropWhile isWsPP) =
            (b :: bs) ++ c₀ :: z := by
          simp [List.dropWhile_cons, hbnotws]
        rw [hdw]
        have hgc : ¬ (((b :: bs) ++ c₀ :: z : List Char).head? = some ',') := by
          simp only [List.cons_append, List.head?_cons]
          intro hx
          exact itemCh_ne_comma hbitem (by injection hx)
        rw [if_neg hgc]
        have hgl : ¬ (((b :: bs) ++ c₀ :: z : List Char).head? = some '\n' ∨
            ((b :: bs) ++ c₀ :: z : List Char) = []) := by
          rintro (hx | hx)
          · simp only [List.cons_append, List.head?_cons] at hx
            exact itemCh_ne_newline hbitem (by injection hx)
          · simp at hx
        rw [if_neg hgl]
        have hgw : ((((b :: bs) ++ c₀ :: z : List Char)).head?.map itemCh).getD false
            = true := by
          simp [hbitem]
        rw [if_pos hgw]
        have hlq2 : (b :: bs).length + 1 + z.length ≤ n := by
          have e1 : q1.length = (q1.takeWhile isSpTab).length + q2.length := by
            conv_lhs => rw [← List.takeWhile_append_dropWhile (p := isSpTab) (l := q1)]
            rw [← hq2def, List.length_append]
          have e2 : p.length = (p.takeWhile itemCh).length + q1.length := by
            conv_lhs => rw [← List.takeWhile_append_dropWhile (p := itemCh) (l := p)]
            rw [← hq1def, List.length_append]
          have e3 : 1 ≤ (q1.takeWhile isSpTab).length := by
            cases hx : q1.takeWhile isSpTab with
            | nil => exact absurd hx hsp
            | cons _ _ => simp
          have e4 : q2.length = (b :: bs).length := by rw [hq2]
          simp only [List.length_cons] at e4 ⊢
          omega
        have := ih (b :: bs) z c₀ hlq2 (by rw [← hq2]; exact hq2good) hd
        simpa using this

theorem tryQuoted_none (q c : Char) (cs : List Char) (h : c ≠ q) :
    tryQuoted q (c :: cs) = none := by
  simp [tryQuoted, h]

theorem parseItem_comma (w q rest : List Char)
    (hw : ∀ c ∈ w, isWsPP c = true) (hq : ∀ c ∈ q, GoodPlainCh c) :
    ∃ t, (parseItem ((w ++ q) ++ ',' :: rest)).2 = t ++ ',' :: rest ∧
      ∀ c ∈ t, isSpTab c = true := by
  have hcws : isWsPP ',' = false := by decide
  simp only [parseItem]
  rw [List.append_assoc, dropWhile_append_all _ hw,
    dropWhile_append_eq (p := isWsPP) rest hcws]
  set q' := q.dropWhile isWsPP with hq'def
  have hq'good : ∀ c ∈ q', GoodPlainCh c :=
    fun c hc => hq c ((List.dropWhile_suffix isWsPP).subset hc)
  cases hq' : q' with
  | nil =>
    simp only [List.nil_append]
    rw [tryQuoted_none '"' ',' rest (by decide), tryQuoted_none '\'' ',' rest (by decide)]
    have : itemCh ',' = false := by decide
    simp only [this]
    exact ⟨[], by simp, by intro c hc; cases hc⟩
  | cons b bs =>
    have hbgood : GoodPlainCh b := hq'good b (by rw [hq']; simp)
    have hbnotws : isWsPP b = false := by
      have := List.head?_dropWhile_not isWsPP q
      rw [← hq'def, hq'] at this
      simpa using this
    have hbitem : itemCh b = true ∧ b ≠ '"' ∧ b ≠ '\'' := by
      rcases hbgood with h1 | h1
      · exact h1
      · rw [sptab_isWsPP h1] at hbnotws; cases hbnotws
    simp only [List.cons_append]
    rw [tryQuoted_none '"' b _ hbitem.2.1, tryQuoted_none '\'' b _ hbitem.2.2]
    simp only [hbitem.1, if_true]
    have := plainItemF_comma (b :: (bs ++ ',' :: rest)).length (b :: bs) rest
      (by simp; omega) (by rw [← hq']; exact hq'good)
    simpa using this

theorem parseItem_dirty (w q z : List Char) (c₀ : Char)
    (hw : ∀ c ∈ w, isWsPP c = true) (hq : ∀ c ∈ q, GoodPlainCh c)
    (hd : DirtyCh c₀) :
    (parseItem ((w ++ q) ++ c₀ :: z)).2 = c₀ :: z := by
  simp only [parseItem]
  rw [List.append_assoc, dropWhile_append_all _ hw,
    dropWhile_append_eq (p := isWsPP) z hd.2]
  set q' := q.dropWhile isWsPP with hq'def
  have hq'good : ∀ c ∈ q', GoodPlainCh c :=
    fun c hc => hq c ((List.dropWhile_suffix isWsPP).subset hc)
  cases hq' : q' with
  | nil =>
    simp only [List.nil_append]
    rw [tryQuoted_none '"' c₀ z (dirty_ne_quote hd).1,
      tryQuoted_none '\'' c₀ z (dirty_ne_quote hd).2]
    simp only [dirty_not_item hd]
    simp
  | cons b bs =>
    have hbgood : GoodPlainCh b := hq'good b (by rw [hq']; simp)
    have hbnotws : isWsPP b = false := by
      have := List.head?_dropWhile_not isWsPP q
      rw [← hq'def, hq'] at this
      simpa using this
    have hbitem : itemCh b = true ∧ b ≠ '"' ∧ b ≠ '\'' := by
      rcases hbgood with h1 | h1
      · exact h1
      · rw [sptab_isWsPP h1] at hbnotws; cases hbnotws
    simp only [List.cons_append]
    rw [tryQuoted_none '"' b _ hbitem.2.1, tryQuoted_none '\'' b _ hbitem.2.2]
    simp only [hbitem.1, if_true]
    have := plainItemF_dirty (b :: (bs ++ c₀ :: z)).length (b :: bs) z c₀
      (by simp; omega) (by rw [← hq']; exact hq'good) hd
    simpa using this

theorem parseCommaList_seg_comma (w q rest : List Char)
    (hw : ∀ c ∈ w, isWsPP c = true) (hq : ∀ c ∈ q, GoodPlainCh c) :
    parseCommaList ((w ++ q) ++ ',' :: rest) =
      (parseItem ((w ++ q) ++ ',' :: rest)).1 :: parseCommaList rest := by
  obtain ⟨t, ht1, ht2⟩ := parseItem_comma w q rest hw hq
  apply parseCommaList_cons
  rw [ht1, dropWhile_append_all _ (fun c hc => sptab_isWsPP (ht2 c hc))]
  have : isWsPP ',' = false := by decide
  simp [List.dropWhile_cons, this]

theorem parseCommaList_seg_dirty (w q z : List Char) (c₀ : Char)
    (hw : ∀ c ∈ w, isWsPP c = true) (hq : ∀ c ∈ q, GoodPlainCh c)
    (hd : DirtyCh c₀) :
    (parseCommaList ((w ++ q) ++ c₀ :: z)).length = 1 := by
  rw [parseCommaList_stop]
  · rfl
  · rw [parseItem_dirty w q z c₀ hw hq hd]
    simp only [List.dropWhile_cons, hd.2]
    simp only [Bool.false_eq_true, if_false, List.head?_cons]
    intro hx
    exact dirty_ne_comma hd (by injection hx)

theorem parseCommaList_nocomma (s : List Char) (h : ',' ∉ s) :
    (parseCommaList s).length = 1 := by
  rw [parseCommaList_stop]
  · rfl
  · intro hx
    have hsub : (parseItem s).2.dropWhile isWsPP ⊆ s :=
      ((List.dropWhile_suffix isWsPP).trans (parseItem_rest_suffix s)).subset
    cases hy : (parseItem s).2.dropWhile isWsPP with
    | nil => rw [hy] at hx; cases hx
    | cons a as =>
      rw [hy] at hx
      simp only [List.head?_cons] at hx
      have : a = ',' := by injection hx
      subst this
      exact h (hsub (by rw [hy]; simp))

/-! ## Character sets of parsed items and of `pick_units` outputs (C3) -/

theorem plainItemF_item_chars :
    ∀ (f : Nat) (cs : List Char) (c : Char), c ∈ (plainItemF f cs).1 →
      (itemCh c = true ∨ isSpTab c = true) ∧ c ∈ cs := by
  intro f
  induction f with
  | zero => intro cs c h; simp [plainItemF] at h
  | succ n ih =>
    intro cs c h
    have hw : ∀ x ∈ cs.takeWhile itemCh, (itemCh x = true ∨ isSpTab x = true) ∧ x ∈ cs :=
      fun x hx => ⟨Or.inl (List.mem_takeWhile_imp hx), (List.takeWhile_prefix _).subset hx⟩
    have hsp : ∀ x ∈ (cs.drop (cs.takeWhile itemCh).length).takeWhile isSpTab,
        (itemCh x = true ∨ isSpTab x = true) ∧ x ∈ cs :=
      fun x hx => ⟨Or.inr (List.mem_takeWhile_imp hx),
        List.drop_subset _ _ ((List.takeWhile_prefix _).subset hx)⟩
    simp only [plainItemF] at h
    split at h
    · exact hw c h
    · split at h
      · exact hw c h
      · split at h
        · exact hw c h
        · split at h
          · rcases List.mem_append.mp h with h' | h'
            · rcases List.mem_append.mp h' with h'' | h''
              · exact hw c h''
              · exact hsp c h''
            · have := ih _ c h'
              exact ⟨this.1, List.drop_subset _ _ (List.drop_subset _ _ this.2)⟩
          · rcases List.mem_append.mp h with h' | h'
            · exact hw c h'
            · exact hsp c h'

theorem parseItem_item_chars (cs : List Char)
    (hq : ∀ c ∈ cs, c ≠ '"' ∧ c ≠ '\'') :
    ∀ c ∈ (parseItem cs).1, GoodPlainCh c := by
  intro c hc
  simp only [parseItem] at hc
  cases hu : cs.dropWhile isWsPP with
  | nil =>
    rw [hu] at hc
    simp [tryQuoted] at hc
  | cons d ds =>
    have hd : d ∈ cs := (List.dropWhile_suffix isWsPP).subset (by rw [hu]; simp)
    rw [hu, tryQuoted_none '"' d ds (hq d hd).1,
      tryQuoted_none '\'' d ds (hq d hd).2] at hc
    by_cases hitem : itemCh d = true
    · simp only [hitem, if_true] at hc
      have h1 := plainItemF_item_chars (d :: ds).length (d :: ds) c hc
      have h2 : c ∈ cs := (List.dropWhile_suffix isWsPP).subset (hu ▸ h1.2)
      rcases h1.1 with h3 | h3
      · exact Or.inl ⟨h3, hq c h2⟩
      · exact Or.inr h3
    · simp only [hitem] at hc
      simp at hc

theorem parseCommaList_items_chars :
    ∀ (N : Nat) (cs : List Char), cs.length ≤ N →
      (∀ c ∈ cs, c ≠ '"' ∧ c ≠ '\'') →
      ∀ it ∈ parseCommaList cs, ∀ c ∈ it, GoodPlainCh c := by
  intro N
  induction N with
  | zero =>
    intro cs hlen hq it hit c hc
    have : cs = [] := by cases cs <;> simp_all
    subst this
    have : it = [] := by
      have := parseCommaList_stop ([] : List Char) (by simp [parseItem, tryQuoted])
      rw [this] at hit
      simpa [parseItem, tryQuoted] using hit
    subst this
    cases hc
  | succ n ih =>
    intro cs hlen hq it hit c hc
    by_cases hhead : ((parseItem cs).2.dropWhile isWsPP).head? = some ','
    · cases hy : (parseItem cs).2.dropWhile isWsPP with
      | nil => rw [hy] at hhead; cases hhead
      | cons a as =>
        rw [hy] at hhead
        have ha : a = ',' := by
          simp only [List.head?_cons] at hhead
          injection hhead
        subst ha
        rw [parseCommaList_cons cs as hy] at hit
        rcases List.mem_cons.mp hit with h' | h'
        · subst h'
          exact parseItem_item_chars cs hq c hc
        · have hsub : (',' :: as : List Char) ⊆ cs := by
            rw [← hy]
            exact ((List.dropWhile_suffix isWsPP).trans (parseItem_rest_suffix cs)).subset
          have hlen2 : as.length ≤ n := by
            have h1 : ((parseItem cs).2.dropWhile isWsPP).length ≤ cs.length :=
              le_trans (List.dropWhile_suffix _).length_le (parseItem_rest_length cs)
            rw [hy] at h1
            simp only [List.length_cons] at h1
            omega
          exact ih as hlen2 (fun x hx => hq x (hsub (by simp [hx]))) it h' c hc
    · rw [parseCommaList_stop cs hhead] at hit
      rcases List.mem_cons.mp hit with h' | h'
      · subst h'
        exact parseItem_item_chars cs hq c hc
      · cases h'

theorem dedupFirst_subset : ∀ (l : List (List Char)), dedupFirst l ⊆ l := by
  intro l
  induction l with
  | nil => simp [dedupFirst]
  | cons x xs ih =>
    simp only [dedupFirst]
    intro y hy
    rcases List.mem_cons.mp hy with h | h
    · simp [h]
    · exact List.mem_cons.mpr (Or.inr (ih (List.mem_of_mem_filter h)))

theorem joinSep_chars (sep : Char) :
    ∀ (l : List (List Char)) (c : Char), c ∈ joinSep sep l →
      c = sep ∨ ∃ x ∈ l, c ∈ x := by
  intro l
  induction l with
  | nil => intro c h; simp [joinSep] at h
  | cons x xs ih =>
    intro c h
    cases xs with
    | nil =>
      right
      exact ⟨x, by simp, by simpa [joinSep] using h⟩
    | cons y ys =>
      simp only [joinSep] at h
      rcases List.mem_append.mp h with h' | h'
      · exact Or.inr ⟨x, by simp, h'⟩
      · rcases List.mem_cons.mp h' with h'' | h''
        · exact Or.inl h''
        · rcases ih c h'' with h3 | ⟨z, hz, hc⟩
          · exact Or.inl h3
          · exact Or.inr ⟨z, List.mem_cons_of_mem x hz, hc⟩

theorem aliasStep_chars (toks : List (List Char)) (u : List Char)
    (acc : List (List Char) × List Char) (al : List Char) :
    (∀ x ∈ (aliasStep toks u acc al).1, x ∈ acc.1 ∨ x = u) ∧
      (∀ c ∈ (aliasStep toks u acc al).2, c ∈ acc.2 ∨ c ∈ u) := by
  unfold aliasStep
  split
  · constructor
    · intro x hx
      rcases List.mem_append.mp hx with h | h
      · exact Or.inl h
      · exact Or.inr (by simpa using h)
    · intro c hc
      simp only at hc
      split at hc
      · rcases mem_replaceAll _ _ _ _ hc with h | h
        · exact Or.inl h
        · cases h
      · rcases mem_replaceAll _ _ _ _ hc with h | h
        · exact Or.inl h
        · exact Or.inr h
  · exact ⟨fun x hx => Or.inl hx, fun c hc => Or.inl hc⟩

theorem aliasFold_chars (toks : List (List Char)) :
    ∀ (entries : List (String × List String)) (acc : List (List Char) × List Char),
      (∀ x ∈ (entries.foldl
          (fun acc p => p.2.foldl (fun a s => aliasStep toks p.1.data a s.data) acc)
          acc).1, x ∈ acc.1 ∨ ∃ p ∈ entries, x = p.1.data) ∧
      (∀ c ∈ (entries.foldl
          (fun acc p => p.2.foldl (fun a s => aliasStep toks p.1.data a s.data) acc)
          acc).2, c ∈ acc.2 ∨ ∃ p ∈ entries, c ∈ p.1.data) := by
  have entry : ∀ (u : String) (als : List String) (acc : List (List Char) × List Char),
      (∀ x ∈ (als.foldl (fun a s => aliasStep toks u.data a s.data) acc).1,
        x ∈ acc.1 ∨ x = u.data) ∧
      (∀ c ∈ (als.foldl (fun a s => aliasStep toks u.data a s.data) acc).2,
        c ∈ acc.2 ∨ c ∈ u.data) := by
    intro u als
    induction als with
    | nil => intro acc; exact ⟨fun x hx => Or.inl hx, fun c hc => Or.inl hc⟩
    | cons a as iha =>
      intro acc
      simp only [List.foldl_cons]
      constructor
      · intro x hx
        rcases (iha (aliasStep toks u.data acc a.data)).1 x hx with h | h
        · exact (aliasStep_chars toks u.data acc a.data).1 x h
        · exact Or.inr h
      · intro c hc
        rcases (iha (aliasStep toks u.data acc a.data)).2 c hc with h | h
        · exact (aliasStep_chars toks u.data acc a.data).2 c h
        · exact Or.inr h
  intro entries
  induction entries with
  | nil => intro acc; exact ⟨fun x hx => Or.inl hx, fun c hc => Or.inl hc⟩
  | cons e es ihe =>
    intro acc
    simp only [List.foldl_cons]
    constructor
    · intro x hx
      rcases (ihe _).1 x hx with h | ⟨p, hp, hx'⟩
      · rcases (entry e.1 e.2 acc).1 x h with h' | h'
        · exact Or.inl h'
        · exact Or.inr ⟨e, by simp, h'⟩
      · exact Or.inr ⟨p, by simp [hp], hx'⟩
    · intro c hc
      rcases (ihe _).2 c hc with h | ⟨p, hp, hc'⟩
      · rcases (entry e.1 e.2 acc).2 c h with h' | h'
        · exact Or.inl h'
        · exact Or.inr ⟨e, by simp, h'⟩
      · exact Or.inr ⟨p, by simp [hp], hc'⟩

theorem desc_picks_label_chars :
    ∀ p ∈ desc_picks, ∀ c ∈ p.1.data, c ∈ labelChars := by decide

theorem desc_picks_label_unitChars :
    ∀ p ∈ desc_picks, ∀ c ∈ p.1.data, c ∈ unitChars := by decide

theorem guess_keywords_label_unitChars :
    ∀ p ∈ guess_keywords, ∀ c ∈ p.1.data, c ∈ unitChars := by decide

theorem pick_units_desc_chars (d v : String) (c : Char)
    (h : c ∈ (pick_units d v).2.data) : c ∈ d.data ∨ c ∈ labelChars := by
  unfold pick_units at h
  cases hl : no_unit_values.lookup v with
  | some u =>
    rw [hl] at h
    exact Or.inl h
  | none =>
    rw [hl] at h
    simp only [pick_units_core] at h
    rcases (aliasFold_chars (splitP isDelim d.data) desc_picks
        ([], d.data)).2 c h with h' | ⟨p, hp, hc'⟩
    · exact Or.inl h'
    · exact Or.inr (desc_picks_label_chars p hp c hc')

theorem lookup_no_unit (v u : String) (h : no_unit_values.lookup v = some u) :
    u = "N/A" ∨ u = "" := by
  simp only [no_unit_values, List.lookup] at h
  split at h
  · left; injection h with h; exact h.symm
  · split at h
    · right; injection h with h; exact h.symm
    · cases h

theorem pick_units_unit_chars (d v : String) (c : Char)
    (h : c ∈ (pick_units d v).1.data) : c ∈ unitChars ∨ c ∈ "N/A".data := by
  unfold pick_units at h
  cases hl : no_unit_values.lookup v with
  | some u =>
    rw [hl] at h
    rcases lookup_no_unit v u hl with rfl | rfl
    · exact Or.inr h
    · cases h
  | none =>
    rw [hl] at h
    simp only [pick_units_core, allow_guessing, if_true] at h
    rcases joinSep_chars ' ' _ c h with h' | ⟨x, hx, hc'⟩
    · left; rw [h']; decide
    · have hx' := dedupFirst_subset _ hx
      rcases guessPhase_shape ((splitP isDelim d.data).map (List.map pyLower))
          (aliasPhase (splitP isDelim d.data) d.data).1 with hsh | ⟨p, hp, hsh⟩
      · rw [hsh] at hx'
        rcases (aliasFold_chars (splitP isDelim d.data) desc_picks
            ([], d.data)).1 x hx' with h2 | ⟨p, hp, h2⟩
        · cases h2
        · left; rw [h2] at hc'; exact desc_picks_label_unitChars p hp c hc'
      · rw [hsh] at hx'
        rcases List.mem_singleton.mp hx' with rfl
        exact Or.inl (guess_keywords_label_unitChars p hp c hc')

/-! ## Shape of `lineFields` on quote-free lines (C3) -/

theorem hellipEsc_quote_free : ∀ c ∈ hellipEsc, c ≠ '"' ∧ c ≠ '\'' := by decide

theorem esc_quote_free (s : List Char) (hq : ∀ c ∈ s, c ≠ '"' ∧ c ≠ '\'') :
    ∀ c ∈ replaceAll [hellip] hellipEsc s, c ≠ '"' ∧ c ≠ '\'' := by
  intro c hc
  rcases mem_replace1 _ _ _ _ hc with ⟨h1, -⟩ | h1
  · exact hq c h1
  · exact hellipEsc_quote_free c h1

theorem plainItemF_fst_cons (n : Nat) (d : Char) (ds : List Char)
    (hd : itemCh d = true) : (plainItemF (n + 1) (d :: ds)).1 ≠ [] := by
  have hw : (d :: ds).takeWhile itemCh = d :: ds.takeWhile itemCh := by
    simp [List.takeWhile_cons, hd]
  simp only [plainItemF]
  split
  · simp [hw]
  · split
    · simp [hw]
    · split
      · simp [hw]
      · split
        · simp [hw]
        · simp [hw]

theorem parseItem_of_item_nil (cs : List Char)
    (hq : ∀ c ∈ cs, c ≠ '"' ∧ c ≠ '\'')
    (h : (parseItem cs).1 = []) : (parseItem cs).2 = cs.dropWhile isWsPP := by
  simp only [parseItem] at h ⊢
  cases hu : cs.dropWhile isWsPP with
  | nil =>
    simp [tryQuoted]
  | cons d ds =>
    have hd : d ∈ cs := (List.dropWhile_suffix isWsPP).subset (by rw [hu]; simp)
    rw [hu] at h
    rw [tryQuoted_none '"' d ds (hq d hd).1,
      tryQuoted_none '\'' d ds (hq d hd).2] at h ⊢
    by_cases hi : itemCh d = true
    · exfalso
      simp only [hi, if_true] at h
      exact plainItemF_fst_cons ds.length d ds hi (by simpa using h)
    · simp [hi]

theorem fallback_prefix_ws (l : String)
    (hq : ∀ c ∈ l.data, c ≠ '"' ∧ c ≠ '\'') (rest : List (List Char))
    (h0 : parseCommaList (replaceAll [hellip] hellipEsc l.data) = [] :: rest)
    (hne : rest ≠ []) :
    ∀ c ∈ l.data.takeWhile (fun c => !(c = ',')), isWsPP c = true := by
  set lcopy := replaceAll [hellip] hellipEsc l.data with hlcopy
  have hqcopy : ∀ c ∈ lcopy, c ≠ '"' ∧ c ≠ '\'' := esc_quote_free l.data hq
  by_cases hhead : ((parseItem lcopy).2.dropWhile isWsPP).head? = some ','
  · cases hy : (parseItem lcopy).2.dropWhile isWsPP with
    | nil => rw [hy] at hhead; cases hhead
    | cons a as =>
      rw [hy] at hhead
      have ha : a = ',' := by
        simp only [List.head?_cons] at hhead
        injection hhead
      subst ha
      rw [parseCommaList_cons lcopy as hy] at h0
      have hitem0 : (parseItem lcopy).1 = [] := by
        have := (List.cons.injEq _ _ _ _).mp h0
        exact this.1
      have hrest2 : (parseItem lcopy).2 = lcopy.dropWhile isWsPP :=
        parseItem_of_item_nil lcopy hqcopy hitem0
      rw [hrest2, dropWhile_idem] at hy
      -- lcopy splits at its first comma into an all-whitespace prefix
      have hsplit : lcopy = lcopy.takeWhile isWsPP ++ ',' :: as := by
        conv_lhs => rw [← List.takeWhile_append_dropWhile (p := isWsPP) (l := lcopy)]
        rw [hy]
      set p := l.data.takeWhile (fun c => !(c = ',')) with hpdef
      set pd := l.data.dropWhile (fun c => !(c = ',')) with hpddef
      have hldata : l.data = p ++ pd :=
    (List.takeWhile_append_dropWhile (p := fun c => !(c = ',')) (l := l.data)).symm
      have hpcomma : (',' : Char) ∉ p := by
        intro hc
        have := List.mem_takeWhile_imp hc
        simp at this
      have hescp_comma : (',' : Char) ∉ replaceAll [hellip] hellipEsc p := by
        intro hc
        rcases mem_replace1 _ _ _ _ hc with ⟨h1, -⟩ | h1
        · exact hpcomma h1
        · revert h1; decide
      cases hpd : pd with
      | nil =>
        exfalso
        have : (',' : Char) ∈ lcopy := by rw [hsplit]; simp
        rw [hlcopy, hldata, hpd, List.append_nil] at this
        exact hescp_comma this
      | cons e es =>
        have he : e = ',' := by
          have := List.head?_dropWhile_not (fun c => !(c = ',')) l.data
          rw [← hpddef, hpd] at this
          simpa using this
        subst he
        have hlcopy2 : lcopy = replaceAll [hellip] hellipEsc p ++
            ',' :: replaceAll [hellip] hellipEsc es := by
          rw [hlcopy, hldata, hpd, replace1_append, replace1_cons,
            if_neg (by decide)]
        have huniq := comma_prefix_unique ','
          (hsplit.symm.trans hlcopy2)
          (fun hc => by
            have := List.mem_takeWhile_imp hc
            simp [isWsPP] at this)
          hescp_comma
        intro c hc
        by_cases hch : c = hellip
        · exfalso
          have hbs : ('\\' : Char) ∈ replaceAll [hellip] hellipEsc p :=
            mem_rep_of_mem_pat hellip hellipEsc p '\\' (hch ▸ hc) (by decide)
          rw [← huniq.1] at hbs
          have := List.mem_takeWhile_imp hbs
          revert this; decide
        · have hcm : c ∈ replaceAll [hellip] hellipEsc p :=
            mem_replace1_of_mem hellip hellipEsc p c hc hch
          rw [← huniq.1] at hcm
          exact List.mem_takeWhile_imp hcm
  · rw [parseCommaList_stop lcopy hhead] at h0
    have : rest = [] := by
      have := (List.cons.injEq _ _ _ _).mp h0
      exact this.2.symm
    exact absurd this hne

theorem lineFields_length (l : String) :
    (lineFields l).length =
      (parseCommaList (replaceAll [hellip] hellipEsc l.data)).length := by
  unfold lineFields
  cases h : parseCommaList (replaceAll [hellip] hellipEsc l.data) with
  | nil => simp [h]
  | cons a rest => cases a <;> simp [h]

theorem lineFields_shape (l : String)
    (hq : ∀ c ∈ l.data, c ≠ '"' ∧ c ≠ '\'') (f0 f1 f2 f3 : List Char)
    (hf : lineFields l = [f0, f1, f2, f3]) :
    ((∀ c ∈ f0, GoodPlainCh c ∨ c = hellip) ∨ (∀ c ∈ f0, isWsPP c = true)) ∧
      (∀ c ∈ f1, GoodPlainCh c ∨ c = hellip) ∧
      (∀ c ∈ f2, GoodPlainCh c ∨ c = hellip) ∧
      (∀ c ∈ f3, GoodPlainCh c ∨ c = hellip) := by
  set lcopy := replaceAll [hellip] hellipEsc l.data with hlcopy
  have hqcopy : ∀ c ∈ lcopy, c ≠ '"' ∧ c ≠ '\'' := esc_quote_free l.data hq
  have hitems : ∀ it ∈ parseCommaList lcopy, ∀ c ∈ it, GoodPlainCh c :=
    parseCommaList_items_chars lcopy.length lcopy (le_refl _) hqcopy
  have hunesc : ∀ (x : List Char), (∀ c ∈ x, GoodPlainCh c) →
      ∀ c ∈ replaceAll hellipEsc [hellip] x, GoodPlainCh c ∨ c = hellip := by
    intro x hx c hc
    rcases mem_replaceAll _ _ _ _ hc with h | h
    · exact Or.inl (hx c h)
    · right; simpa using h
  unfold lineFields at hf
  rw [← hlcopy] at hf
  cases hmatch : parseCommaList lcopy with
  | nil =>
    simp only [hmatch] at hf
    simp at hf
  | cons a rest =>
    simp only [hmatch] at hf
    have hrest : ∀ it ∈ rest, ∀ c ∈ it, GoodPlainCh c :=
      fun it hit => hitems it (by rw [hmatch]; simp [hit])
    cases ha : a with
    | nil =>
      subst ha
      simp only at hf
      obtain ⟨r1, r2, r3, hrest3⟩ : ∃ r1 r2 r3, rest = [r1, r2, r3] := by
        rcases rest with _ | ⟨x1, _ | ⟨x2, _ | ⟨x3, _ | ⟨x4, t⟩⟩⟩⟩ <;> simp_all
      rw [hrest3] at hf
      simp only [List.map_cons, List.map_nil, List.cons.injEq, and_true] at hf
      obtain ⟨he0, he1, he2, he3⟩ := hf
      have hws := fallback_prefix_ws l hq rest (by rw [← hmatch]) (by rw [hrest3]; simp)
      refine ⟨Or.inr ?_, ?_, ?_, ?_⟩
      · intro c hc
        rw [← he0] at hc
        have hnb : ('\\' : Char) ∉ l.data.takeWhile (fun c => !(c = ',')) := by
          intro hb
          have := hws '\\' hb
          revert this; decide
        rw [replaceAll_head_not_mem hellipEsc [hellip] _ '\\' ⟨_, rfl⟩ hnb] at hc
        exact hws c hc
      · intro c hc
        rw [← he1] at hc
        exact hunesc r1 (hrest r1 (by rw [hrest3]; simp)) c hc
      · intro c hc
        rw [← he2] at hc
        exact hunesc r2 (hrest r2 (by rw [hrest3]; simp)) c hc
      · intro c hc
        rw [← he3] at hc
        exact hunesc r3 (hrest r3 (by rw [hrest3]; simp)) c hc
    | cons d ds =>
      subst ha
      simp only at hf
      obtain ⟨r1, r2, r3, hrest3⟩ : ∃ r1 r2 r3, rest = [r1, r2, r3] := by
        rcases rest with _ | ⟨x1, _ | ⟨x2, _ | ⟨x3, _ | ⟨x4, t⟩⟩⟩⟩ <;> simp_all
      rw [hrest3] at hf
      simp only [List.map_cons, List.map_nil, List.cons.injEq, and_true] at hf
      obtain ⟨he0, he1, he2, he3⟩ := hf
      have hd0 : ∀ c ∈ (d :: ds : List Char), GoodPlainCh c :=
        hitems (d :: ds) (by rw [hmatch]; simp)
      refine ⟨Or.inl ?_, ?_, ?_, ?_⟩
      · intro c hc
        rw [← he0] at hc
        exact hunesc (d :: ds) hd0 c hc
      · intro c hc
        rw [← he1] at hc
        exact hunesc r1 (hrest r1 (by rw [hrest3]; simp)) c hc
      · intro c hc
        rw [← he2] at hc
        exact hunesc r2 (hrest r2 (by rw [hrest3]; simp)) c hc
      · intro c hc
        rw [← he3] at hc
        exact hunesc r3 (hrest r3 (by rw [hrest3]; simp)) c hc

/-! ## The file pass never moves the temporary file on failure (C4) -/

theorem passLines_error_src (f : String → Option String) :
    ∀ (ls : List String) (fs e : FileState),
      passLines f fs ls = .error e → e.src = fs.src := by
  intro ls
  induction ls with
  | nil => intro fs e h; simp [passLines] at h
  | cons l ls ih =>
    intro fs e h
    simp only [passLines] at h
    cases hl : passLine f fs l with
    | none => rw [hl] at h; cases h; rfl
    | some fs' =>
      rw [hl] at h
      have hsrc : fs'.src = fs.src := by
        simp only [passLine, Option.map] at hl
        cases hf : f l with
        | none => rw [hf] at hl; cases hl
        | some o => rw [hf] at hl; cases hl; rfl
      rw [ih fs' e h, hsrc]

/-- Claim C4: if processing some line raises before the pass completes
(the write loop returns an error), the source file is left exactly as
it was: the temporary file is never moved over the source. -/
theorem c4_atomic_on_failure (f : String → Option String) (src : List String)
    (e : FileState) (h : passLines f ⟨src, []⟩ src = .error e) :
    (append_units_run f src).src = src := by
  unfold append_units_run
  rw [h]
  exact passLines_error_src f src ⟨src, []⟩ e h

/-- Witness for C4: a per-line transform that raises on the first line
leaves the one-line source untouched. -/
theorem c4_atomic_on_failure_witness :
    passLines (fun _ => none) ⟨["A,b,c,5"], []⟩ ["A,b,c,5"] =
        .error ⟨["A,b,c,5"], []⟩ ∧
      (append_units_run (fun _ => none) ["A,b,c,5"]).src = ["A,b,c,5"] :=
  ⟨rfl, c4_atomic_on_failure (fun _ => none) ["A,b,c,5"] ⟨["A,b,c,5"], []⟩ rfl⟩

/-! ## Termination of `strip_math` (C10) -/

theorem findSub_some (s pat : List Char) (i : Nat) (h : findSub s pat = some i) :
    i ≤ s.length ∧ pat.isPrefixOf (s.drop i) = true := by
  unfold findSub at h
  have hmem := List.mem_of_find?_eq_some h
  have hp := List.find?_some h
  rw [List.mem_range] at hmem
  exact ⟨by omega, hp⟩

theorem findSubFrom_some (s pat : List Char) (i j : Nat)
    (h : findSubFrom s pat i = some j) :
    i ≤ j ∧ j ≤ s.length ∧ pat.isPrefixOf (s.drop j) = true := by
  unfold findSubFrom at h
  have hmem := List.mem_of_find?_eq_some h
  have hp := List.find?_some h
  rw [List.mem_filter, List.mem_range] at hmem
  refine ⟨by simpa using hmem.2, by omega, hp⟩

theorem stripMathStep_shrinks (s s' : List Char)
    (h : stripMathStep s = some s') : s'.length < s.length := by
  unfold stripMathStep at h
  cases hf : findSub s mathTag with
  | none => simp [hf] at h
  | some start =>
    simp only [hf] at h
    cases hg : findSubFrom s [btick] (start + mathTag.length) with
    | none => simp [hg] at h
    | some stop =>
      simp only [hg, Option.some_inj] at h
      subst h
      obtain ⟨hs1, hs2⟩ := findSub_some s mathTag start hf
      obtain ⟨hg1, hg2, hg3⟩ := findSubFrom_some s [btick] _ stop hg
      have htag : mathTag.length ≤ s.length - start := by
        have := (List.isPrefixOf_iff_prefix.mp hs2).length_le
        simpa using this
      have hstop : stop < s.length := by
        have := (List.isPrefixOf_iff_prefix.mp hg3).length_le
        simp only [List.length_cons, List.length_nil, List.length_drop] at this
        omega
      have hlen : mathTag.length = 7 := rfl
      simp only [List.length_append, List.length_take, List.length_drop]
      omega

/-- Claim C10 (implicit): `strip_math` terminates on every input: each
loop iteration that does not return strictly shortens the string, so
fuel `s.length + 1` always suffices for the fuel-indexed loop. -/
theorem c10_strip_math_terminates :
    (∀ s s' : List Char, stripMathStep s = some s' → s'.length < s.length) ∧
      ∀ s : List Char, (stripMathFuel (s.length + 1) s).isSome = true := by
  refine ⟨stripMathStep_shrinks, ?_⟩
  suffices h : ∀ (n : Nat) (s : List Char), s.length < n →
      (stripMathFuel n s).isSome = true by
    exact fun s => h (s.length + 1) s (by omega)
  intro n
  induction n with
  | zero => intro s hs; omega
  | succ m ih =>
    intro s hs
    simp only [stripMathFuel]
    cases hstep : stripMathStep s with
    | none => rfl
    | some s' =>
      exact ih s' (by have := stripMathStep_shrinks s s' hstep; omega)

/-- Witness for C10: one concrete loop iteration strips one tag and
strictly shortens the string. -/
theorem c10_strip_math_terminates_witness :
    stripMathStep ":math:`A`".data = some "A".data ∧
      "A".data.length < ":math:`A`".data.length :=
  ⟨by decide, c10_strip_math_terminates.1 _ _ (by decide)⟩

/-! ## The markup rewriter on the spec's two example lines (C8) -/

/-- Claim C8: the per-line transform of `patch_subscript` maps the line
containing exactly ``A\ :sub:`x``` to one containing ``:math:`A_x```,
and maps the line containing exactly ``:math:`A`/:math:`B``` to one
containing the fraction form (`:math:` with `\frac` of `A` over `B`). -/
theorem c8_markup_rewrites :
    patch_line "A\\ :sub:`x`\n".data = some ":math:`A_x`\n".data ∧
      patch_line ":math:`A`/:math:`B`\n".data =
        some ":math:`\\frac\x7bA\x7d\x7bB\x7d`\n".data := by
  constructor
  · decide
  · decide

/-! ## Field count of a rewritten line in the second pass (C3) -/

theorem labelChars_good_or_dirty :
    ∀ c ∈ labelChars, GoodPlainCh c ∨ DirtyCh c := by decide

theorem hellipEsc_good : ∀ c ∈ hellipEsc, GoodPlainCh c := by decide

theorem unitChars_ne_comma : ∀ c ∈ unitChars, c ≠ ',' := by decide

theorem na_ne_comma : ∀ c ∈ "N/A".data, c ≠ ',' := by decide

theorem parseCommaList_seg_comma2 (s rest : List Char)
    (hs : (∀ c ∈ s, GoodPlainCh c) ∨ (∀ c ∈ s, isWsPP c = true)) :
    (parseCommaList (s ++ ',' :: rest)).length =
      (parseCommaList rest).length + 1 := by
  rcases hs with hs | hs
  · have h := parseCommaList_seg_comma [] s rest (by simp) hs
    simp only [List.nil_append] at h
    rw [h, List.length_cons]
  · have h := parseCommaList_seg_comma s [] rest hs (by simp)
    simp only [List.append_nil] at h
    rw [h, List.length_cons]

theorem parseCommaList_seg_dirty2 (s z : List Char)
    (hall : ∀ c ∈ s, GoodPlainCh c ∨ DirtyCh c)
    (hdirty : ¬ ∀ c ∈ s, GoodPlainCh c) :
    (parseCommaList (s ++ z)).length = 1 := by
  have hd : s.dropWhile (fun c => decide (GoodPlainCh c)) ≠ [] := by
    intro hx
    apply hdirty
    intro c hc
    have htk : s.takeWhile (fun c => decide (GoodPlainCh c)) = s := by
      conv_rhs => rw [← List.takeWhile_append_dropWhile
        (p := fun c => decide (GoodPlainCh c)) (l := s)]
      rw [hx, List.append_nil]
    rw [← htk] at hc
    simpa using List.mem_takeWhile_imp hc
  obtain ⟨c₀, dr, hsplit2⟩ : ∃ c₀ dr,
      s.dropWhile (fun c => decide (GoodPlainCh c)) = c₀ :: dr := by
    cases hx : s.dropWhile (fun c => decide (GoodPlainCh c)) with
    | nil => exact absurd hx hd
    | cons a as => exact ⟨a, as, rfl⟩
  have hc₀mem : c₀ ∈ s := by
    have hsub : s.dropWhile (fun c => decide (GoodPlainCh c)) ⊆ s :=
      (List.dropWhile_suffix _).subset
    exact hsub (by rw [hsplit2]; simp)
  have hng : ¬ GoodPlainCh c₀ := by
    have hh := List.head?_dropWhile_not (fun c => decide (GoodPlainCh c)) s
    rw [hsplit2] at hh
    simpa using hh
  have hc₀ : DirtyCh c₀ := by
    rcases hall c₀ hc₀mem with h | h
    · exact absurd h hng
    · exact h
  have htkgood : ∀ c ∈ s.takeWhile (fun c => decide (GoodPlainCh c)),
      GoodPlainCh c := by
    intro c hc
    simpa using List.mem_takeWhile_imp hc
  have hs2 : s ++ z =
      s.takeWhile (fun c => decide (GoodPlainCh c)) ++ c₀ :: (dr ++ z) := by
    conv_lhs => rw [← List.takeWhile_append_dropWhile
      (p := fun c => decide (GoodPlainCh c)) (l := s)]
    rw [hsplit2]
    simp
  rw [hs2]
  have h := parseCommaList_seg_dirty []
    (s.takeWhile (fun c => decide (GoodPlainCh c))) (dr ++ z) c₀
    (by simp) htkgood hc₀
  simpa using h

theorem esc_comma (x y : List Char) :
    replaceAll [hellip] hellipEsc (x ++ ',' :: y) =
      replaceAll [hellip] hellipEsc x ++
        ',' :: replaceAll [hellip] hellipEsc y := by
  rw [replace1_append, replace1_cons, if_neg (by decide)]

theorem out_parse_length (f0 dd f2 f3 uu : List Char)
    (h0 : (∀ c ∈ replaceAll [hellip] hellipEsc f0, GoodPlainCh c) ∨
          (∀ c ∈ replaceAll [hellip] hellipEsc f0, isWsPP c = true))
    (h1 : ∀ c ∈ replaceAll [hellip] hellipEsc dd, GoodPlainCh c ∨ DirtyCh c)
    (h2 : ∀ c ∈ replaceAll [hellip] hellipEsc f2, GoodPlainCh c)
    (h3 : ∀ c ∈ replaceAll [hellip] hellipEsc f3, GoodPlainCh c)
    (h4 : (',' : Char) ∉ replaceAll [hellip] hellipEsc uu) :
    (parseCommaList (replaceAll [hellip] hellipEsc
        (joinSep ',' [f0, dd, f2, f3, uu] ++ ['\n']))).length = 5 ∨
      (parseCommaList (replaceAll [hellip] hellipEsc
        (joinSep ',' [f0, dd, f2, f3, uu] ++ ['\n']))).length = 2 := by
  have hjoin : joinSep ',' [f0, dd, f2, f3, uu] ++ ['\n'] =
      f0 ++ ',' :: (dd ++ ',' :: (f2 ++ ',' :: (f3 ++ ',' ::
        (uu ++ ['\n'])))) := by
    simp [joinSep, List.append_assoc]
  rw [hjoin, esc_comma, esc_comma, esc_comma, esc_comma]
  have hE4 : (',' : Char) ∉ replaceAll [hellip] hellipEsc (uu ++ ['\n']) := by
    rw [replace1_append]
    intro hc
    rcases List.mem_append.mp hc with hc | hc
    · exact h4 hc
    · rcases mem_replace1 _ _ _ _ hc with ⟨hh, -⟩ | hh
      · simp at hh
      · revert hh; decide
  by_cases hclean : ∀ c ∈ replaceAll [hellip] hellipEsc dd, GoodPlainCh c
  · left
    rw [parseCommaList_seg_comma2 _ _ h0,
      parseCommaList_seg_comma2 _ _ (Or.inl hclean),
      parseCommaList_seg_comma2 _ _ (Or.inl h2),
      parseCommaList_seg_comma2 _ _ (Or.inl h3),
      parseCommaList_nocomma _ hE4]
  · right
    rw [parseCommaList_seg_comma2 _ _ h0,
      parseCommaList_seg_dirty2 (replaceAll [hellip] hellipEsc dd) _
        h1 hclean]

/-! ## Branch lemmas for `lineOut` (C3) -/

theorem lineOut_marker (l : String)
    (h : (containsSub l.data ".-)".data ||
      "Note:".data.isPrefixOf l.data) = true) :
    lineOut l = l := by
  unfold lineOut
  rw [if_pos h]

theorem lineOut_reject (l : String)
    (h : (lineFields l).length ≠ 4 ∨
      "Errors".data.isSuffixOf ((lineFields l).getD 0 []) = true ∨
      (lineFields l).getD 0 [] ∈ [([] : List Char), ['\n'], "Rule".data]) :
    lineOut l = l := by
  unfold lineOut
  by_cases h1 : (containsSub l.data ".-)".data ||
      "Note:".data.isPrefixOf l.data) = true
  · rw [if_pos h1]
  · rw [if_neg h1, if_pos h]

theorem lineOut_transform (l : String)
    (h1 : ¬(containsSub l.data ".-)".data ||
      "Note:".data.isPrefixOf l.data) = true)
    (h2 : ¬((lineFields l).length ≠ 4 ∨
      "Errors".data.isSuffixOf ((lineFields l).getD 0 []) = true ∨
      (lineFields l).getD 0 [] ∈ [([] : List Char), ['\n'], "Rule".data])) :
    lineOut l = String.mk (joinSep ','
      [(lineFields l).getD 0 [],
       (pick_units (String.mk ((lineFields l).getD 1 []))
         (String.mk ((lineFields l).getD 3 []))).2.data,
       (lineFields l).getD 2 [],
       (lineFields l).getD 3 [],
       (pick_units (String.mk ((lineFields l).getD 1 []))
         (String.mk ((lineFields l).getD 3 []))).1.data]
      ++ ['\n']) := by
  unfold lineOut
  rw [if_neg h1, if_neg h2]

/-- Counterexample to claim C3 as stated: for this input line the
first pass succeeds and rewrites the line, yet the second pass does not
write the rewritten line verbatim — it is parsed into four fields again
(the quoted-field text re-parses differently after the alias rewrite)
and transformed a second time. -/
theorem c3_counterexample :
    lineOut "A,\"\\xuma z um,b\",5\n" ≠ "A,\"\\xuma z um,b\",5\n" ∧
      lineOut (lineOut "A,\"\\xuma z um,b\",5\n") ≠
        lineOut "A,\"\\xuma z um,b\",5\n" := by
  constructor
  · decide
  · decide

/-- Claim C3, amended: lines written verbatim in pass 1 are written
verbatim again in pass 2; and for every line containing no double- or
single-quote character the per-line rewrite is idempotent — in
particular a line transformed to 5 fields in pass 1 is rejected by the
field-count check in pass 2.  (For lines with quote characters the
second pass can transform the output again; see the counterexample.) -/
theorem c3_amended (l : String) :
    (lineOut l = l → lineOut (lineOut l) = lineOut l) ∧
      ((∀ c ∈ l.data, c ≠ '"' ∧ c ≠ '\'') →
        lineOut (lineOut l) = lineOut l) := by
  constructor
  · intro h
    rw [h]
    exact h
  · intro hq
    by_cases hm : (containsSub l.data ".-)".data ||
        "Note:".data.isPrefixOf l.data) = true
    · rw [lineOut_marker l hm, lineOut_marker l hm]
    · by_cases hr : (lineFields l).length ≠ 4 ∨
          "Errors".data.isSuffixOf ((lineFields l).getD 0 []) = true ∨
          (lineFields l).getD 0 [] ∈ [([] : List Char), ['\n'], "Rule".data]
      · rw [lineOut_reject l hr, lineOut_reject l hr]
      · have hlen4 : (lineFields l).length = 4 := by
          by_contra hx
          exact hr (Or.inl hx)
        obtain ⟨f0, f1, f2, f3, hfields⟩ :
            ∃ a b c d, lineFields l = [a, b, c, d] := by
          rcases hfl : lineFields l with
            _ | ⟨x0, _ | ⟨x1, _ | ⟨x2, _ | ⟨x3, _ | ⟨x4, t⟩⟩⟩⟩⟩ <;> simp_all
        have hout : lineOut l = String.mk (joinSep ','
            [f0, (pick_units (String.mk f1) (String.mk f3)).2.data, f2, f3,
             (pick_units (String.mk f1) (String.mk f3)).1.data]
            ++ ['\n']) := by
          rw [lineOut_transform l hm hr, hfields]
          simp only [List.getD_cons_zero, List.getD_cons_succ]
        obtain ⟨hs0, hs1, hs2, hs3⟩ := lineFields_shape l hq f0 f1 f2 f3 hfields
        have hescGood : ∀ (x : List Char), (∀ c ∈ x, GoodPlainCh c ∨ c = hellip) →
            ∀ c ∈ replaceAll [hellip] hellipEsc x, GoodPlainCh c := by
          intro x hx c hc
          rcases mem_replace1 _ _ _ _ hc with ⟨h1, h2⟩ | h1
          · rcases hx c h1 with h3 | h3
            · exact h3
            · exact absurd h3 h2
          · exact hellipEsc_good c h1
        have hE0 : (∀ c ∈ replaceAll [hellip] hellipEsc f0, GoodPlainCh c) ∨
            (∀ c ∈ replaceAll [hellip] hellipEsc f0, isWsPP c = true) := by
          rcases hs0 with hs0 | hs0
          · exact Or.inl (hescGood f0 hs0)
          · right
            have hnb : hellip ∉ f0 := by
              intro hb
              have hw := hs0 hellip hb
              revert hw
              decide
            rw [replaceAll_head_not_mem [hellip] hellipEsc f0 hellip
              ⟨[], rfl⟩ hnb]
            exact hs0
        have hE1 : ∀ c ∈ replaceAll [hellip] hellipEsc
            (pick_units (String.mk f1) (String.mk f3)).2.data,
            GoodPlainCh c ∨ DirtyCh c := by
          intro c hc
          rcases mem_replace1 _ _ _ _ hc with ⟨hin, hne⟩ | hin
          · rcases pick_units_desc_chars (String.mk f1) (String.mk f3) c hin
                with hd | hd
            · rcases hs1 c hd with h3 | h3
              · exact Or.inl h3
              · exact absurd h3 hne
            · exact labelChars_good_or_dirty c hd
          · exact Or.inl (hellipEsc_good c hin)
        have hE2 := hescGood f2 hs2
        have hE3 := hescGood f3 hs3
        have hE4 : (',' : Char) ∉ replaceAll [hellip] hellipEsc
            (pick_units (String.mk f1) (String.mk f3)).1.data := by
          intro hc
          rcases mem_replace1 _ _ _ _ hc with ⟨hin, -⟩ | hin
          · rcases pick_units_unit_chars (String.mk f1) (String.mk f3) ',' hin
                with hd | hd
            · exact unitChars_ne_comma ',' hd rfl
            · exact na_ne_comma ',' hd rfl
          · revert hin
            decide
        have hcount := out_parse_length f0
          (pick_units (String.mk f1) (String.mk f3)).2.data f2 f3
          (pick_units (String.mk f1) (String.mk f3)).1.data
          hE0 hE1 hE2 hE3 hE4
        rw [hout]
        by_cases hm2 : (containsSub (String.mk (joinSep ','
            [f0, (pick_units (String.mk f1) (String.mk f3)).2.data, f2, f3,
             (pick_units (String.mk f1) (String.mk f3)).1.data]
            ++ ['\n'])).data ".-)".data ||
            "Note:".data.isPrefixOf (String.mk (joinSep ','
            [f0, (pick_units (String.mk f1) (String.mk f3)).2.data, f2, f3,
             (pick_units (String.mk f1) (String.mk f3)).1.data]
            ++ ['\n'])).data) = true
        · exact lineOut_marker _ hm2
        · apply lineOut_reject
          left
          rw [lineFields_length]
          rcases hcount with h | h <;> rw [h] <;> omega

/-- Witness for the amended claim C3: a pass-through line (a `Note:`
line) is passed through again, and a quote-free table row that the
first pass extends with a unit column is rejected (written verbatim) by
the second pass. -/
theorem c3_amended_witness :
    lineOut "Note: x\n" = "Note: x\n" ∧
      lineOut (lineOut "Note: x\n") = lineOut "Note: x\n" ∧
      (∀ c ∈ "RULE1,Minimum width,x,0.5\n".data, c ≠ '"' ∧ c ≠ '\'') ∧
      lineOut (lineOut "RULE1,Minimum width,x,0.5\n") =
        lineOut "RULE1,Minimum width,x,0.5\n" :=
  ⟨by decide, (c3_amended "Note: x\n").1 (by decide), by decide,
    (c3_amended "RULE1,Minimum width,x,0.5\n").2 (by decide)⟩

end RstFmt
